import Mathlib

/-!
Verification of the embedded-language core of an HTML language-features server.

The development shallowly embeds the server's region extraction, region index,
synthetic sub-document projection, folding-range limiting, semantic-token
encoding, cache sweeping and format stitching, and proves (or refutes) the
specified properties about them.

Conventions used throughout:
* document text is `List Char`;
* document offsets are `Nat`;
* where only offsets matter (the region index), LSP positions are represented
  by their offsets (`positionAt`/`offsetAt` are mutually inverse bijections
  between valid offsets and positions of a fixed document, so this is a
  faithful change of coordinates);
* JavaScript `undefined` becomes `Option.none`; a thrown exception becomes an
  `Option.none` result of the whole computation;
* `Array.prototype.sort` (stable since ES2019) is modelled by a stable
  insertion sort: a stable sort by a total preorder is uniquely determined,
  so any stable implementation is a faithful model.
-/

/-- A stable insertion step: insert `a` before the first element `x` with
`le a x`.  Used to model JavaScript's stable `Array.prototype.sort`. -/
def orderedInsertB (le : α → α → Bool) (a : α) : List α → List α
  | [] => [a]
  | x :: xs => if le a x then a :: x :: xs else x :: orderedInsertB le a xs

/-- Stable sort by the boolean preorder `le` (model of `Array.prototype.sort`). -/
def stableSort (le : α → α → Bool) : List α → List α
  | [] => []
  | a :: l => orderedInsertB le a (stableSort le l)

/-- Newline-character test (`isNewlineCharacter` in the source: CR or LF). -/
def isNL (c : Char) : Bool := c = '\n' || c = '\r'

/-- An embedded-language region of the host document (type `EmbeddedRegion` in
the source): a span `[start, end)` of offsets, an optional language id
(`none` models an unrecognized script dialect), and an attribute-value flag. -/
structure EmbeddedRegion where
  languageId : Option String
  start : Nat
  end_ : Nat
  attributeValue : Bool := false
deriving Repr, DecidableEq

/-- An output entry of `getLanguageRanges` (type `LanguageRange` in the
source), with positions represented by offsets. -/
structure LanguageRange where
  languageId : Option String
  start : Nat
  end_ : Nat
  attributeValue : Bool
deriving Repr, DecidableEq

/-- Loop of `HTMLDocumentRegions.getLanguageRanges` for the full-document
query (query start offset 0, query end offset `docLen`), translated from the
source: regions intersecting the remaining query are clipped and emitted,
preceded by a host-language gap when the cursor is behind the region start. -/
def getLanguageRangesAux (docLen : Nat) : Nat → List EmbeddedRegion → List LanguageRange
  | currentOffset, [] =>
    if currentOffset < docLen then [⟨some "html", currentOffset, docLen, false⟩] else []
  | currentOffset, region :: rest =>
    if region.end_ > currentOffset ∧ region.start < docLen then
      (if currentOffset < region.start then
        [⟨some "html", currentOffset, max region.start currentOffset, false⟩] else []) ++
      (if min region.end_ docLen > region.start then
        [⟨region.languageId, max region.start currentOffset, min region.end_ docLen,
          region.attributeValue⟩] else []) ++
      getLanguageRangesAux docLen (min region.end_ docLen) rest
    else
      getLanguageRangesAux docLen currentOffset rest

/-- `HTMLDocumentRegions.getLanguageRanges` applied to the full document
range `[0, docLen)`. -/
def getLanguageRanges (docLen : Nat) (regions : List EmbeddedRegion) : List LanguageRange :=
  getLanguageRangesAux docLen 0 regions

/-- The list `l` of language ranges tiles `[a, b)`: each range starts where
the previous one ends, the first starts at `a`, the last ends at `b`, and
every range is nonempty. -/
def TilesFrom : Nat → List LanguageRange → Nat → Prop
  | a, [], b => a = b
  | a, r :: rest, b => r.start = a ∧ a < r.end_ ∧ TilesFrom r.end_ rest b

/-- Strict alternation of host-language gaps and non-host ranges: consecutive
output entries never agree on being a host range. -/
def HostAlternating (l : List LanguageRange) : Prop :=
  List.Chain' (fun a b => (a.languageId == some "html") ≠ (b.languageId == some "html")) l

/-- Loop of `HTMLDocumentRegions.getLanguagesInDocument`, translated from the
source: collect distinct defined region language ids in first-seen order and
return immediately (without appending the host language) once three are
collected; otherwise append `"html"` at the end. -/
def getLanguagesInDocumentAux : List String → List EmbeddedRegion → List String
  | result, [] => result ++ ["html"]
  | result, region :: rest =>
    match region.languageId with
    | none => getLanguagesInDocumentAux result rest
    | some lid =>
      if lid ∈ result then getLanguagesInDocumentAux result rest
      else if (result ++ [lid]).length = 3 then result ++ [lid]
      else getLanguagesInDocumentAux (result ++ [lid]) rest

/-- `HTMLDocumentRegions.getLanguagesInDocument`. -/
def getLanguagesInDocument (regions : List EmbeddedRegion) : List String :=
  getLanguagesInDocumentAux [] regions

/-- Distinct defined region language ids in first-seen order (no cap): the
reference list the spec describes. -/
def firstSeenLanguages : List String → List EmbeddedRegion → List String
  | seen, [] => seen
  | seen, region :: rest =>
    match region.languageId with
    | none => firstSeenLanguages seen rest
    | some lid =>
      if lid ∈ seen then firstSeenLanguages seen rest
      else firstSeenLanguages (seen ++ [lid]) rest

/-- A document-cache entry (type `Entry` in the source); only the key and the
timestamp matter to the sweep. -/
structure CacheEntry where
  key : String
  timestamp : Int
deriving Repr, DecidableEq

/-- `Cache.cleanup`, translated from the source: one sweep at time `now` with
sweep interval `cleanupInterval` (seconds) deletes every entry whose
`timestamp` is strictly greater than `now - cleanupInterval * 1000` and keeps
the rest. -/
def cacheCleanup (entries : List CacheEntry) (now cleanupInterval : Int) : List CacheEntry :=
  entries.filter fun e => !(e.timestamp > now - cleanupInterval * 1000)

/-- A token of the lexical scanner feeding `EmbeddedDocument.getRegions`.
Spans are `[start, end)` offsets into the host text; the token text is the
corresponding slice of the host text. -/
inductive ScanToken where
  | startTag (start end_ : Nat)
  | styles (start end_ : Nat)
  | script (start end_ : Nat)
  | attributeName (start end_ : Nat)
  | attributeValue (start end_ : Nat)
  | other
deriving Repr, DecidableEq

/-- Slice `[s, e)` of a text (the scanner's `getTokenText`). -/
def tokenText (doc : List Char) (s e : Nat) : List Char := (doc.drop s).take (e - s)

/-- Word-character test (`\w` of JavaScript regular expressions). -/
def isWordChar (c : Char) : Bool := c.isAlpha || c.isDigit || c = '_'

/-- `EmbeddedDocument.getAttributeLanguage`, translated from the source: the
attribute name `style` (case-insensitive) maps to css, `on<word>`
(case-insensitive) maps to javascript, anything else to nothing. -/
def getAttributeLanguage (attributeName : List Char) : Option String :=
  let lower := attributeName.map Char.toLower
  if lower = "style".toList then some "css"
  else
    match lower with
    | 'o' :: 'n' :: rest => if rest ≠ [] ∧ rest.all isWordChar then some "javascript" else none
    | _ => none

/-- Contiguous-substring test over character lists. -/
def isInfixB (needle hay : List Char) : Bool :=
  hay.tails.any fun t => needle.isPrefixOf t

/-- Test used for the script `type` attribute: the token text contains a
quote, one of the given alternatives, and a quote (the finite expansion of
the source's regular-expression `test`). -/
def containsQuoted (alts : List (List Char)) (text : List Char) : Bool :=
  alts.any fun alt =>
    isInfixB (['\"'] ++ alt ++ ['\"']) text || isInfixB (['\"'] ++ alt ++ ['\'']) text ||
    isInfixB (['\''] ++ alt ++ ['\"']) text || isInfixB (['\''] ++ alt ++ ['\'']) text

/-- Alternatives of `/["'](module|(text|application)\/(java|ecma)script|text\/babel)["']/`. -/
def javascriptMimes : List (List Char) :=
  ["module".toList, "text/javascript".toList, "text/ecmascript".toList,
   "application/javascript".toList, "application/ecmascript".toList, "text/babel".toList]

/-- Scan state of `EmbeddedDocument.getRegions`: last open tag name, last
attribute name, script dialect implied by the last `type` attribute, and the
accumulated outputs. -/
structure ScanState where
  lastTagName : List Char
  lastAttributeName : Option (List Char)
  languageIdFromType : Option String
  regions : List EmbeddedRegion
  importedScripts : List (List Char)
deriving Repr, DecidableEq

/-- Initial scan state of `EmbeddedDocument.getRegions`. -/
def initScanState : ScanState :=
  { lastTagName := [], lastAttributeName := none, languageIdFromType := none,
    regions := [], importedScripts := [] }

/-- One iteration of the token loop of `EmbeddedDocument.getRegions`,
translated case by case from the source `switch`. -/
def scanStep (doc : List Char) (st : ScanState) : ScanToken → ScanState
  | .startTag s e =>
    { st with lastTagName := tokenText doc s e, lastAttributeName := none,
              languageIdFromType := some "javascript" }
  | .styles s e =>
    { st with regions := st.regions ++ [⟨some "css", s, e, false⟩] }
  | .script s e =>
    { st with regions := st.regions ++ [⟨st.languageIdFromType, s, e, false⟩] }
  | .attributeName s e =>
    { st with lastAttributeName := some (tokenText doc s e) }
  | .attributeValue s e =>
    let value := tokenText doc s e
    if st.lastAttributeName = some "src".toList ∧ st.lastTagName.map Char.toLower = "script".toList then
      { st with
        importedScripts := st.importedScripts ++
          [if value.take 1 = ['\''] ∨ value.take 1 = ['\"'] then value.drop 1 else value],
        lastAttributeName := none }
    else if st.lastAttributeName = some "type".toList ∧ st.lastTagName.map Char.toLower = "script".toList then
      { st with
        languageIdFromType :=
          if containsQuoted javascriptMimes value then some "javascript"
          else if containsQuoted ["text/typescript".toList] value then some "typescript"
          else none,
        lastAttributeName := none }
    else
      match getAttributeLanguage (st.lastAttributeName.getD "null".toList) with
      | some lid =>
        { st with
          regions := st.regions ++
            [if doc.getD s ' ' = '\'' ∨ doc.getD s ' ' = '\"' then
              ⟨some lid, s + 1, e - 1, true⟩ else ⟨some lid, s, e, true⟩],
          lastAttributeName := none }
      | none => { st with lastAttributeName := none }
  | .other => st

/-- `EmbeddedDocument.getRegions`: fold of `scanStep` over the token stream. -/
def getRegions (doc : List Char) (tokens : List ScanToken) : ScanState :=
  tokens.foldl (scanStep doc) initScanState

/-- Loop body of `HTMLDocumentRegions.substituteWithWhitespace`: scan the
characters of a span, emitting every line-break character immediately and
counting (in `ws`) the non-line-break characters seen since the last
line break. -/
def wsLoop : List Char → Nat → List Char → (Nat × List Char)
  | [], ws, acc => (ws, acc)
  | c :: rest, ws, acc =>
    if isNL c then wsLoop rest 0 (acc ++ [c]) else wsLoop rest (ws + 1) acc

/-- `HTMLDocumentRegions.substituteWithWhitespace`, translated from the
source.  The span `[start, end_)` of `oldContent` is replaced by `before`,
its line breaks (skipping the first `before.length` characters), trailing
spaces, and `after`; the trailing-space count is the accumulated whitespace
minus `after.length`, and a negative count (a `String.repeat` range error in
JavaScript) is modelled as `none`. -/
def substituteWithWhitespace (source : List Char) (start end_ : Nat) (oldContent : List Char)
    (before after : List Char) : Option (List Char) :=
  let slice := (oldContent.drop (start + before.length)).take (end_ - (start + before.length))
  let p := wsLoop slice 0 []
  if after.length ≤ p.1 then
    some (source ++ before ++ p.2 ++ List.replicate (p.1 - after.length) ' ' ++ after)
  else none

/-- `HTMLDocumentRegions.getPrefix`: the language-specific opening wrapper of
an attribute-value region (`CSS_STYLE_RULE` + an opening brace for css). -/
def getPrefixOf (region : EmbeddedRegion) : List Char :=
  if region.attributeValue ∧ region.languageId = some "css" then "__\x7b".toList else []

/-- `HTMLDocumentRegions.getSuffix`: the language-specific closing wrapper of
an attribute-value region. -/
def getSuffixOf (region : EmbeddedRegion) : List Char :=
  if region.attributeValue then
    if region.languageId = some "css" then "\x7d".toList
    else if region.languageId = some "javascript" then ";".toList
    else []
  else []

/-- Selection test of `HTMLDocumentRegions.getEmbeddedDocument`: the region's
language matches the target and attribute values are honoured or ignored per
the caller's flag. -/
def regionSelected (languageId : String) (ignoreAttributeValues : Bool)
    (region : EmbeddedRegion) : Bool :=
  region.languageId == some languageId && (!ignoreAttributeValues || !region.attributeValue)

/-- Region loop of `HTMLDocumentRegions.getEmbeddedDocument`, threading the
result text, the cursor and the pending suffix. -/
def embedLoop (languageId : String) (ignoreAttributeValues : Bool) (oldContent : List Char) :
    List EmbeddedRegion → (List Char × Nat × List Char) → Option (List Char × Nat × List Char)
  | [], st => some st
  | region :: rest, (result, currentPos, lastSuffix) =>
    if regionSelected languageId ignoreAttributeValues region then
      match substituteWithWhitespace result currentPos region.start oldContent lastSuffix
          (getPrefixOf region) with
      | none => none
      | some r =>
        embedLoop languageId ignoreAttributeValues oldContent rest
          (r ++ (oldContent.drop region.start).take (region.end_ - region.start),
           region.end_, getSuffixOf region)
    else embedLoop languageId ignoreAttributeValues oldContent rest (result, currentPos, lastSuffix)

/-- `HTMLDocumentRegions.getEmbeddedDocument`: the text of the synthetic
sub-document for the target language (exceptions modelled as `none`). -/
def getEmbeddedDocumentText (languageId : String) (ignoreAttributeValues : Bool)
    (oldContent : List Char) (regions : List EmbeddedRegion) : Option (List Char) :=
  (embedLoop languageId ignoreAttributeValues oldContent regions ([], 0, [])).bind fun st =>
    substituteWithWhitespace st.1 st.2.1 oldContent.length oldContent st.2.2 []

/-- Line count of a carriage-return-free text under the LSP line model (one
more than the number of line feeds). -/
def docLineCount (text : List Char) : Nat := 1 + text.count '\n'

/-- A folding range (only the start and end lines participate in the
limiting algorithm). -/
structure FoldingRange where
  startLine : Nat
  endLine : Nat
deriving Repr, DecidableEq

/-- Comparator of `LanguageService.limitRanges`' sort, as a boolean
preorder: by start line, then by end line. -/
def foldingLe (r1 r2 : FoldingRange) : Bool :=
  r1.startLine < r2.startLine || (r1.startLine == r2.startLine && r1.endLine ≤ r2.endLine)

/-- State of the nesting-level pass of `LanguageService.limitRanges`: the
stack of currently open ranges (`previous`, head = top of the JavaScript
array) and the current innermost range (`top`). -/
structure LevelState where
  previous : List FoldingRange
  top : Option FoldingRange
deriving Repr, DecidableEq

/-- The `do/while` pop loop of `LanguageService.limitRanges`: pop stack
entries until one ends at or after the new range's start line; return the
found entry (if any) and the remaining stack. -/
def popLoop (startLine : Nat) : List FoldingRange → Option FoldingRange × List FoldingRange
  | [] => (none, [])
  | t :: rest => if startLine > t.endLine then popLoop startLine rest else (some t, rest)

/-- One iteration of the nesting-level pass of `LanguageService.limitRanges`:
the new state and the nesting level assigned to the entry (none when the
entry is dropped by the sanitizing pass). -/
def levelStep (st : LevelState) (entry : FoldingRange) : LevelState × Option Nat :=
  match st.top with
  | none => (⟨st.previous, some entry⟩, some 0)
  | some top =>
    if entry.startLine > top.startLine then
      if entry.endLine ≤ top.endLine then
        (⟨top :: st.previous, some entry⟩, some (top :: st.previous).length)
      else if entry.startLine > top.endLine then
        match popLoop entry.startLine st.previous with
        | (some t, rest) => (⟨t :: rest, some entry⟩, some (t :: rest).length)
        | (none, _) => (⟨[], some entry⟩, some 0)
      else (st, none)
    else (st, none)

/-- Scan of `levelStep` over a range list, producing each entry's assigned
nesting level. -/
def levelScan (st : LevelState) : List FoldingRange → List (Option Nat)
  | [] => []
  | r :: rest => (levelStep st r).2 :: levelScan (levelStep st r).1 rest

/-- Nesting levels assigned by `LanguageService.limitRanges` to the sorted
range list. -/
def nestingLevelsOf (rs : List FoldingRange) : List (Option Nat) :=
  levelScan ⟨[], none⟩ rs

/-- The scan state reached just before the `i`-th entry of the sorted list is
processed. -/
def levelStateAt (rs : List FoldingRange) (i : Nat) : LevelState :=
  (rs.take i).foldl (fun st r => (levelStep st r).1) ⟨[], none⟩

/-- Count of entries assigned nesting level `l` (the source records counts
only for levels below 30, and consults only those). -/
def levelCount (levels : List (Option Nat)) (l : Nat) : Nat :=
  levels.count (some l)

/-- The level-selection loop of `LanguageService.limitRanges`: scan levels
`l, l+1, ...` (`fuel` more of them), skipping empty levels, accumulating
counts into `entries`, and stopping with `maxLevel = l` at the first level
whose count would push `entries` above `maxRanges`; if the loop ends without
a break, `maxLevel` keeps its initial value 0. -/
def findMaxLevel (counts : Nat → Nat) (maxRanges : Nat) : Nat → Nat → Nat → Nat × Nat
  | _, entries, 0 => (0, entries)
  | l, entries, fuel + 1 =>
    if counts l ≠ 0 then
      if counts l + entries > maxRanges then (l, entries)
      else findMaxLevel counts maxRanges (l + 1) (entries + counts l) fuel
    else findMaxLevel counts maxRanges (l + 1) entries fuel

/-- The output loop of `LanguageService.limitRanges`: keep every entry with
an assigned level below `maxLevel`; at level `maxLevel`, keep entries while
the running `entries` counter (incremented at every level-`maxLevel` entry)
is below `maxRanges`; drop everything else. -/
def selectRanges (maxRanges maxLevel : Nat) : List (FoldingRange × Option Nat) → Nat → List FoldingRange
  | [], _ => []
  | (_, none) :: rest, entries => selectRanges maxRanges maxLevel rest entries
  | (r, some lv) :: rest, entries =>
    if lv < maxLevel then r :: selectRanges maxRanges maxLevel rest entries
    else if lv = maxLevel then
      if entries < maxRanges then r :: selectRanges maxRanges maxLevel rest (entries + 1)
      else selectRanges maxRanges maxLevel rest (entries + 1)
    else selectRanges maxRanges maxLevel rest entries

/-- `LanguageService.limitRanges`, translated from the source: stable-sort by
(start line, end line), assign nesting levels, find the cutoff level from the
per-level counts (levels at or above 30 are never counted), and emit the
selection.  The level loop of the source runs over the count array, whose
indices stop below 30; running it over all of `0..29` is identical because
empty levels are skipped. -/
def limitRanges (ranges : List FoldingRange) (maxRanges : Nat) : List FoldingRange :=
  let sorted := stableSort foldingLe ranges
  let levels := nestingLevelsOf sorted
  let p := findMaxLevel (fun l => levelCount levels l) maxRanges 0 0 30
  selectRanges maxRanges p.1 (sorted.zip levels) p.2

/-- Cumulative count of entries at levels strictly below `l`. -/
def cumBelow (levels : List (Option Nat)) (l : Nat) : Nat :=
  (List.range l).foldl (fun acc i => acc + levelCount levels i) 0

/-- The spec's cutoff level: the minimal level `L` at which the cumulative
count below `L` plus the count at `L` exceeds the requested maximum
(searched over `0 .. levels.length`, which bounds every assigned level). -/
def specMinLevel (levels : List (Option Nat)) (maxRanges : Nat) : Option Nat :=
  (List.range (levels.length + 1)).find? fun l =>
    maxRanges < cumBelow levels l + levelCount levels l

/-- The spec's selection: every entry with level strictly below `L`, plus
entries at level `L` in sorted order while the quota lasts. -/
def specSelect (cutoff : Nat) : List (FoldingRange × Option Nat) → Nat → List FoldingRange
  | [], _ => []
  | (_, none) :: rest, quota => specSelect cutoff rest quota
  | (r, some lv) :: rest, quota =>
    if lv < cutoff then r :: specSelect cutoff rest quota
    else if lv = cutoff then
      if quota = 0 then specSelect cutoff rest quota
      else r :: specSelect cutoff rest (quota - 1)
    else specSelect cutoff rest quota

/-- A language-mode range as consumed by `LanguageService.getFoldingRanges`:
the governing mode's id (`none` when no registered mode governs the range),
the attribute-value flag, and the range's start/end lines. -/
structure FoldModeRange where
  modeId : Option String
  attributeValue : Bool
  startLine : Nat
  endLine : Nat
deriving Repr, DecidableEq

/-- `getRangesForMode` of `LanguageService.getFoldingRanges`, translated from
the source including its inverted cache test: on a cache miss the mode's
ranges are *not* computed and the cache is *not* filled (the stored `ranges`
stays `undefined`, so `ranges ?? []` yields `[]`); only on a hit are the
ranges recomputed and stored.  `modeFolding id` is the `getFoldingRanges`
result of mode `id` for the current document (`none` when the mode lacks the
capability). -/
def getRangesForMode (modeFolding : String → Option (List FoldingRange))
    (cache : List (String × List FoldingRange)) (id : String) :
    List FoldingRange × List (String × List FoldingRange) :=
  match modeFolding id with
  | none => ([], cache)
  | some f =>
    match cache.lookup id with
    | some _ => (f, (id, f) :: cache)
    | none => ([], cache)

/-- The mode-range loop of `LanguageService.getFoldingRanges`: for every
non-host, non-attribute-value mode range, append the governing mode's
folding ranges clipped to the region's lines. -/
def foldRangesLoop (modeFolding : String → Option (List FoldingRange))
    (cache : List (String × List FoldingRange)) : List FoldModeRange → List FoldingRange
  | [] => []
  | mr :: rest =>
    match mr.modeId with
    | some id =>
      if id ≠ "html" ∧ ¬mr.attributeValue then
        let p := getRangesForMode modeFolding cache id
        (p.1.filter fun r => mr.startLine ≤ r.startLine && r.endLine < mr.endLine) ++
          foldRangesLoop modeFolding p.2 rest
      else foldRangesLoop modeFolding cache rest
    | none => foldRangesLoop modeFolding cache rest

/-- `LanguageService.getFoldingRanges`, translated from the source: the host
mode's folding ranges (when the capability exists), then the fan-out over
the document's mode ranges, then count limiting when a nonzero maximum is
exceeded. -/
def getFoldingRangesModel (htmlRanges : Option (List FoldingRange))
    (modeFolding : String → Option (List FoldingRange))
    (modeRanges : List FoldModeRange) (maxRanges : Nat) : List FoldingRange :=
  let result := (htmlRanges.getD []) ++ foldRangesLoop modeFolding [] modeRanges
  if maxRanges ≠ 0 ∧ maxRanges < result.length then limitRanges result maxRanges else result

/-- An LSP position: zero-based line and character. -/
structure Pos where
  line : Nat
  character : Nat
deriving Repr, DecidableEq

/-- `beforeOrSame` from the source's common helpers: lexicographic order on
(line, character). -/
def beforeOrSame (p1 p2 : Pos) : Bool :=
  p1.line < p2.line || (p1.line == p2.line && p1.character ≤ p2.character)

/-- An LSP range between two positions. -/
structure TextRange where
  start : Pos
  end_ : Pos
deriving Repr, DecidableEq

/-- A semantic token (type `SemanticTokenData` in the source): start
position, length, shared-legend type index and modifier bit set. -/
structure SemanticTokenData where
  start : Pos
  length : Nat
  typeIdx : Nat
  modifierSet : Nat
deriving Repr, DecidableEq

/-- The inner `while` of `SemanticTokenProvider.encodeTokens`: advance the
current range past every range that ends at or before the token start. -/
def advanceRanges (start : Pos) : Option TextRange → List TextRange → Option TextRange × List TextRange
  | none, rest => (none, rest)
  | some r, rest =>
    if beforeOrSame r.end_ start then
      match rest with
      | [] => (none, [])
      | r2 :: rest2 => advanceRanges start (some r2) rest2
    else (some r, rest)

/-- Acceptance test of `SemanticTokenProvider.encodeTokens`: the token lies
entirely inside the range. -/
def tokenAccepted (r : TextRange) (t : SemanticTokenData) : Bool :=
  beforeOrSame r.start t.start &&
    beforeOrSame ⟨t.start.line, t.start.character + t.length⟩ r.end_

/-- The token loop of `SemanticTokenProvider.encodeTokens`, translated from
the source: for each sorted token, advance the range cursor, and if the
token lies entirely inside the current range emit the five-number relative
encoding (line delta, character delta — absolute when the line changed —
length, type index, modifier set). -/
def encodeLoop : List SemanticTokenData → Option TextRange → List TextRange → Nat → Nat → List Int → List Int
  | [], _, _, _, _, acc => acc
  | _ :: _, none, _, _, _, acc => acc
  | curr :: toks, some cr, rs, prefLine, prevChar, acc =>
    let p := advanceRanges curr.start (some cr) rs
    match p.1 with
    | none => acc
    | some r =>
      if tokenAccepted r curr then
        encodeLoop toks (some r) p.2 curr.start.line curr.start.character
          (acc ++ [(curr.start.line : Int) - (prefLine : Int),
                   (curr.start.character : Int) -
                     (if prefLine = curr.start.line then (prevChar : Int) else 0),
                   (curr.length : Int), (curr.typeIdx : Int), (curr.modifierSet : Int)])
      else encodeLoop toks (some r) p.2 prefLine prevChar acc

/-- `SemanticTokenProvider.encodeTokens`: stable-sort tokens and query ranges
by (line, character) of their starts, then run the forward merge. -/
def encodeTokens (tokens : List SemanticTokenData) (ranges : List TextRange) : List Int :=
  let resultTokens := stableSort (fun a b => beforeOrSame a.start b.start) tokens
  let currentRanges := stableSort (fun a b => beforeOrSame a.start b.start) ranges
  match currentRanges with
  | [] => []
  | r :: rest => encodeLoop resultTokens (some r) rest 0 0 []

/-- Decoder of the relative token encoding, as the spec describes it:
accumulate line deltas; the character base is the previous character when
the line delta is zero and absolute otherwise. -/
def decodeStream : List Int → Int → Int → List (Int × Int × Int × Int × Int)
  | dl :: dc :: len :: ty :: mods :: rest, prevLine, prevChar =>
    (prevLine + dl, (if dl = 0 then prevChar + dc else dc), len, ty, mods) ::
      decodeStream rest (prevLine + dl) (if dl = 0 then prevChar + dc else dc)
  | _, _, _ => []

/-- The (line, character, length, type, modifiers) tuple of a token. -/
def tokenTuple (t : SemanticTokenData) : Int × Int × Int × Int × Int :=
  ((t.start.line : Int), (t.start.character : Int), (t.length : Int),
   (t.typeIdx : Int), (t.modifierSet : Int))

/-- Offsets (after each line break) computed by the text-document library's
`computeLineOffsets`, starting the scan at offset `i`; `\r\n` counts as one
line break. -/
def computeLineOffsetsAux : List Char → Nat → List Nat
  | [], _ => []
  | '\r' :: '\n' :: rest, i => (i + 2) :: computeLineOffsetsAux rest (i + 2)
  | '\r' :: rest, i => (i + 1) :: computeLineOffsetsAux rest (i + 1)
  | '\n' :: rest, i => (i + 1) :: computeLineOffsetsAux rest (i + 1)
  | _ :: rest, i => computeLineOffsetsAux rest (i + 1)

/-- All line-start offsets of a text (line 0 starts at offset 0). -/
def computeLineOffsets (text : List Char) : List Nat :=
  0 :: computeLineOffsetsAux text 0

/-- Scan for the last line whose start offset is at most `o` (the linear
equivalent of the library's binary search in `positionAt`). -/
def posFind : List Nat → Nat → Nat → Nat → Pos
  | [], o, line, lineStart => ⟨line, o - lineStart⟩
  | next :: rest, o, line, lineStart =>
    if next ≤ o then posFind rest o (line + 1) next else ⟨line, o - lineStart⟩

/-- `TextDocument.positionAt` of the text-document library: clamp the offset
to the text, find its line, and subtract the line start. -/
def positionAt (text : List Char) (offset : Nat) : Pos :=
  posFind (computeLineOffsetsAux text 0) (min offset text.length) 0 0

/-- `TextDocument.offsetAt` of the text-document library: line start plus
character, clamped between the line start and the next line start. -/
def offsetAt (text : List Char) (p : Pos) : Nat :=
  let lo := computeLineOffsets text
  if p.line ≥ lo.length then text.length
  else
    let lineOffset := lo.getD p.line 0
    let nextLineOffset := if p.line + 1 < lo.length then lo.getD (p.line + 1) 0 else text.length
    max (min (lineOffset + p.character) nextLineOffset) lineOffset

/-- A text edit: a replaced range and its replacement text. -/
structure TextEditM where
  range : TextRange
  newText : List Char
deriving Repr, DecidableEq

/-- `getWellformedEdit` of the text-document library: swap the range ends
when they are reversed. -/
def wellformed (e : TextEditM) : TextEditM :=
  if beforeOrSame e.range.start e.range.end_ then e
  else ⟨⟨e.range.end_, e.range.start⟩, e.newText⟩

/-- Sort order of `TextDocument.applyEdits`: by start line, then start
character (stable). -/
def editLe (a b : TextEditM) : Bool :=
  beforeOrSame a.range.start b.range.start

/-- The splice loop of `TextDocument.applyEdits`, processing the sorted edits
from last to first and accumulating the rebuilt tail of the document;
overlapping edits (a thrown error in the library) yield `none`. -/
def applyEditsLoop (text : List Char) : List TextEditM → Nat → List Char → Option (Nat × List Char)
  | [], lastOffset, acc => some (lastOffset, acc)
  | e :: earlier, lastOffset, acc =>
    let startOffset := offsetAt text e.range.start
    let endOffset := offsetAt text e.range.end_
    if endOffset ≤ lastOffset then
      applyEditsLoop text earlier startOffset
        (e.newText ++ (text.drop endOffset).take (lastOffset - endOffset) ++ acc)
    else none

/-- `TextDocument.applyEdits` of the text-document library. -/
def applyEdits (text : List Char) (edits : List TextEditM) : Option (List Char) :=
  let sorted := stableSort editLe (edits.map wellformed)
  (applyEditsLoop text sorted.reverse text.length []).map fun p => text.take p.1 ++ p.2

/-- `isEOL` from the source's string helpers: the character at `offset` is a
line break (out-of-range reads are not line breaks, as in JavaScript). -/
def isEOL (content : List Char) (offset : Nat) : Bool :=
  match content.get? offset with
  | some c => isNL c
  | none => false

/-- The backward walk of `LanguageService.format`'s range trim: step the end
offset back over line-break characters while it stays above the previous
line's start. -/
def trimEOLLoop (content : List Char) (prevLineStart : Nat) : Nat → Nat
  | 0 => 0
  | e + 1 => if isEOL content e ∧ prevLineStart < e + 1 then trimEOLLoop content prevLineStart e else e + 1

/-- Step 1 of `LanguageService.format`: when the requested range ends at
column 0 of a later line and not at the document end, walk the end back over
dangling line breaks. -/
def fmtFormatRange (content : List Char) (range : TextRange) : TextRange :=
  let endOffset := offsetAt content range.end_
  if range.end_.character = 0 ∧ 0 < range.end_.line ∧ endOffset ≠ content.length then
    ⟨range.start,
     positionAt content (trimEOLLoop content (offsetAt content ⟨range.end_.line - 1, 0⟩) endOffset)⟩
  else range

/-- A language-mode range as consumed by `LanguageService.format`: the
governing mode's id (`none` when no registered mode governs it), the
attribute-value flag and the position span. -/
structure FmtModeRange where
  modeId : Option String
  attributeValue : Bool
  start : Pos
  end_ : Pos
deriving Repr, DecidableEq

/-- Step 2 of `LanguageService.format` (the leading non-host pass): while the
current mode range is not the host's, format the span from the cursor to the
range end with the range's mode (skipping attribute values and modes without
formatting), accumulate the edits, and advance the cursor; returns the
accumulated edits, the cursor, and the unconsumed mode ranges (empty when
the loop exhausted all ranges). -/
def prefixPass (modeFormatFn : String → Option (List Char → TextRange → List TextEditM))
    (content : List Char) : List FmtModeRange → Pos → List TextEditM →
    List TextEditM × Pos × List FmtModeRange
  | [], startPos, acc => (acc, startPos, [])
  | r :: rest, startPos, acc =>
    if r.modeId = some "html" then (acc, startPos, r :: rest)
    else
      prefixPass modeFormatFn content rest r.end_
        (match r.modeId with
         | some id =>
           match modeFormatFn id with
           | some f => if ¬r.attributeValue then acc ++ f content ⟨startPos, r.end_⟩ else acc
           | none => acc
         | none => acc)

/-- Occurrence of `word` in `text` at index `i` with `\b` word boundaries on
both sides. -/
def hasWordOccurrenceAt (word text : List Char) (i : Nat) : Bool :=
  word.isPrefixOf (text.drop i) &&
  (i == 0 || !isWordChar (text.getD (i - 1) ' ')) &&
  (decide (text.length ≤ i + word.length) || !isWordChar (text.getD (i + word.length) ' '))

/-- The test `/\bword\b/` on a text. -/
def hasWordOccurrence (word text : List Char) : Bool :=
  (List.range (text.length + 1)).any fun i => hasWordOccurrenceAt word text i

/-- The `enabledModes` record of `LanguageService.format`: css and javascript
formatting are enabled unless the unformatted-tags setting names `style`
resp. `script`; every other id reads `undefined`, i.e. disabled. -/
def enabledModesOf (unformattedTags : List Char) (id : String) : Bool :=
  if id = "css" then !hasWordOccurrence "style".toList unformattedTags
  else if id = "javascript" then !hasWordOccurrence "script".toList unformattedTags
  else false

/-- Pass 4 of `LanguageService.format`: collect the embedded formatters'
edits over the mode ranges of the host-formatted temporary content. -/
def embeddedEditsOf (modeFormatFn : String → Option (List Char → TextRange → List TextEditM))
    (unformattedTags : List Char) (newContent : List Char)
    (embeddedRanges : List FmtModeRange) : List TextEditM :=
  embeddedRanges.foldl
    (fun acc r =>
      match r.modeId with
      | some id =>
        match modeFormatFn id with
        | some f =>
          if enabledModesOf unformattedTags id ∧ ¬r.attributeValue then
            acc ++ f newContent ⟨r.start, r.end_⟩
          else acc
        | none => acc
      | none => acc)
    []

/-- `LanguageService.format`, translated from the source.  The external
collaborators are parameters: `modesInRange content range` is the region
index's mode-range decomposition of a document with text `content` (used
both for the original and the temporary document), `modeFormatFn id` is mode
`id`'s range formatter (with the formatting options and settings already
applied, `none` when the mode or its formatting capability is absent), and
`htmlFormat` is the host formatter (`htmlMode.format!`).  Exceptions
(overlapping edits in `applyEdits`) are modelled as `none`. -/
def formatModel (modesInRange : List Char → TextRange → List FmtModeRange)
    (modeFormatFn : String → Option (List Char → TextRange → List TextEditM))
    (htmlFormat : List Char → TextRange → List TextEditM)
    (unformattedTags : List Char)
    (content : List Char) (range : TextRange) : Option (List TextEditM) :=
  let formatRange := fmtFormatRange content range
  let p := prefixPass modeFormatFn content (modesInRange content formatRange) formatRange.start []
  match p.2.2 with
  | [] => some p.1
  | _ :: _ =>
    let formatRange2 : TextRange := ⟨p.2.1, formatRange.end_⟩
    let htmlEdits := htmlFormat content formatRange2
    match applyEdits content htmlEdits with
    | none => none
    | some newContent =>
      let afterLen := content.length - offsetAt content formatRange2.end_
      let newFormatRange : TextRange :=
        ⟨formatRange2.start, positionAt newContent (newContent.length - afterLen)⟩
      let embeddedEdits :=
        embeddedEditsOf modeFormatFn unformattedTags newContent
          (modesInRange newContent newFormatRange)
      if embeddedEdits = [] then some (p.1 ++ htmlEdits)
      else
        match applyEdits newContent embeddedEdits with
        | none => none
        | some resultContent =>
          let a := offsetAt content formatRange2.start
          let b := resultContent.length - afterLen
          some (p.1 ++ [⟨formatRange2, (resultContent.drop (min a b)).take (max a b - min a b)⟩])

/-- Test for an assigned nesting level strictly below `L`. -/
def belowP (cutoff : Nat) : Option Nat → Bool
  | some v => decide (v < cutoff)
  | none => false

theorem firstSeenLanguages_append (l : List EmbeddedRegion) :
    ∀ seen : List String, ∃ t, firstSeenLanguages seen l = seen ++ t := by
  induction l with
  | nil => exact fun seen => ⟨[], by simp [firstSeenLanguages]⟩
  | cons r rest ih =>
    intro seen
    match h : r.languageId with
    | none => simpa [firstSeenLanguages, h] using ih seen
    | some lid =>
      by_cases hmem : lid ∈ seen
      · simpa [firstSeenLanguages, h, hmem] using ih seen
      · obtain ⟨t, ht⟩ := ih (seen ++ [lid])
        exact ⟨[lid] ++ t, by simp [firstSeenLanguages, h, hmem, ht]⟩

theorem getLanguagesInDocumentAux_spec (l : List EmbeddedRegion) :
    ∀ seen : List String, seen.length < 3 →
      getLanguagesInDocumentAux seen l =
        (if 3 ≤ (firstSeenLanguages seen l).length then (firstSeenLanguages seen l).take 3
         else firstSeenLanguages seen l ++ ["html"]) := by
  induction l with
  | nil =>
    intro seen hlt
    simp [getLanguagesInDocumentAux, firstSeenLanguages, Nat.not_le.2 hlt]
  | cons r rest ih =>
    intro seen hlt
    match h : r.languageId with
    | none => simpa [getLanguagesInDocumentAux, firstSeenLanguages, h] using ih seen hlt
    | some lid =>
      by_cases hmem : lid ∈ seen
      · simpa [getLanguagesInDocumentAux, firstSeenLanguages, h, hmem] using ih seen hlt
      · have hlen : (seen ++ [lid]).length = seen.length + 1 := by simp
        by_cases h3 : (seen ++ [lid]).length = 3
        · obtain ⟨t, ht⟩ := firstSeenLanguages_append rest (seen ++ [lid])
          have hge : 3 ≤ (firstSeenLanguages (seen ++ [lid]) rest).length := by
            rw [ht, List.length_append, ← h3]
            exact Nat.le_add_right _ _
          have htake : (firstSeenLanguages (seen ++ [lid]) rest).take 3 = seen ++ [lid] := by
            rw [ht, ← h3, List.take_left]
          have h3' : seen.length = 2 := by omega
          simp [getLanguagesInDocumentAux, firstSeenLanguages, h, hmem, h3', hge, htake]
        · have hlt2 : (seen ++ [lid]).length < 3 := by omega
          have h3' : ¬(seen.length = 2) := by omega
          simpa [getLanguagesInDocumentAux, firstSeenLanguages, h, hmem, h3'] using
            ih (seen ++ [lid]) hlt2

/-- C7 counterexample: a document whose regions carry three distinct defined
languages (css, javascript, typescript).  `getLanguagesInDocument` returns
those three and does *not* append the host language `"html"` as the final
element, contradicting the claim. -/
theorem getLanguagesInDocument_cap_counterexample :
    getLanguagesInDocument
        [⟨some "css", 0, 1, false⟩, ⟨some "javascript", 2, 3, false⟩,
         ⟨some "typescript", 4, 5, false⟩] = ["css", "javascript", "typescript"] ∧
      "html" ∉ getLanguagesInDocument
        [⟨some "css", 0, 1, false⟩, ⟨some "javascript", 2, 3, false⟩,
         ⟨some "typescript", 4, 5, false⟩] := by
  constructor <;> decide

/-- C7 (amended): `getLanguagesInDocument` returns the distinct defined
region language ids in first-seen order; once three distinct ids are found
the list is returned capped at those three *without* the host language,
otherwise `"html"` is appended as the final element.  A document with no
regions yields `["html"]`, and the sample document (style attribute, onclick
attribute, style block, script block — region language sequence css,
javascript, css, javascript) yields `["css", "javascript", "html"]`. -/
theorem getLanguagesInDocument_spec (regions : List EmbeddedRegion) :
    getLanguagesInDocument regions =
        (if 3 ≤ (firstSeenLanguages [] regions).length then
          (firstSeenLanguages [] regions).take 3
         else firstSeenLanguages [] regions ++ ["html"]) ∧
      getLanguagesInDocument [] = ["html"] ∧
      getLanguagesInDocument
        [⟨some "css", 10, 20, true⟩, ⟨some "javascript", 31, 35, true⟩,
         ⟨some "css", 49, 64, false⟩, ⟨some "javascript", 80, 88, false⟩] =
        ["css", "javascript", "html"] := by
  refine ⟨getLanguagesInDocumentAux_spec regions [] (by decide), by decide, by decide⟩

/-- C8: one sweep of `Cache.cleanup` at `now = 100000` with the default 60s
interval (cutoff 40000).  The entry stamped 99000 is *younger* than the
cutoff yet is deleted, and the entry stamped 10000 is *older* than the
cutoff yet is retained — the exact opposite of the claimed (and intended)
age-based sweep, caused by the inverted comparison in the source. -/
theorem cacheCleanup_keeps_stale :
    cacheCleanup [⟨"fresh", 99000⟩, ⟨"stale", 10000⟩] 100000 60 = [⟨"stale", 10000⟩] ∧
      (100000 - 60 * 1000 : Int) = 40000 := by
  constructor <;> decide

/-- C9 (amended): when the scan state records a `script` open tag and a
pending `src` attribute, an attribute-value token whose text is quoted
appends the value with only the *leading* quote removed (the trailing quote
remains — `substr(1, length - 1)` keeps the rest of the string) to the
imported-scripts list, and creates no region for that attribute
occurrence. -/
theorem getRegions_src_import (doc : List Char) (st : ScanState) (s e : Nat)
    (hsrc : st.lastAttributeName = some "src".toList)
    (htag : st.lastTagName.map Char.toLower = "script".toList)
    (hq : (tokenText doc s e).take 1 = ['\''] ∨ (tokenText doc s e).take 1 = ['\"']) :
    (scanStep doc st (.attributeValue s e)).importedScripts =
        st.importedScripts ++ [(tokenText doc s e).drop 1] ∧
      (scanStep doc st (.attributeValue s e)).regions = st.regions := by
  simp [scanStep, hsrc, htag, hq]

/-- C9 witness: the amended theorem applied to the scan of
`script src="a"`. -/
theorem getRegions_src_import_witness :
    (scanStep "script src=\"a\"".toList
          { initScanState with lastTagName := "script".toList,
                               lastAttributeName := some "src".toList }
          (.attributeValue 11 14)).importedScripts =
        [] ++ [(tokenText "script src=\"a\"".toList 11 14).drop 1] ∧
      (scanStep "script src=\"a\"".toList
          { initScanState with lastTagName := "script".toList,
                               lastAttributeName := some "src".toList }
          (.attributeValue 11 14)).regions = [] :=
  getRegions_src_import "script src=\"a\"".toList
    { initScanState with lastTagName := "script".toList,
                         lastAttributeName := some "src".toList }
    11 14 (by decide) (by decide) (by decide)

/-- C9 counterexample: scanning `script src="a"` records the imported script
as `a"` — the trailing quote is *not* removed, contradicting the claim that
both quotes are stripped. -/
theorem getRegions_src_trailing_quote :
    (getRegions "script src=\"a\"".toList
        [.startTag 0 6, .attributeName 7 10, .attributeValue 11 14]).importedScripts =
        [['a', '\"']] ∧
      (getRegions "script src=\"a\"".toList
        [.startTag 0 6, .attributeName 7 10, .attributeValue 11 14]).importedScripts ≠
        [['a']] := by
  constructor <;> decide

/-- C4: a document with one css mode range (lines 1–5, not an attribute
value) whose css backend reports the in-region folding range (2, 3), host
ranges `[(0, 10)]`, and no limiting.  The fanned-out result contains only the
host's ranges: the inverted per-mode cache test in `getRangesForMode` always
answers `[]` on the (always-missed) cache lookup, so the css backend's
in-region range (2, 3) — which the claim requires in the output — is
dropped. -/
theorem getFoldingRanges_drops_embedded :
    getFoldingRangesModel (some [⟨0, 10⟩])
        (fun id => if id = "css" then some [⟨2, 3⟩] else none)
        [⟨some "css", false, 1, 5⟩] 100 = [⟨0, 10⟩] ∧
      (⟨2, 3⟩ : FoldingRange) ∉ getFoldingRangesModel (some [⟨0, 10⟩])
        (fun id => if id = "css" then some [⟨2, 3⟩] else none)
        [⟨some "css", false, 1, 5⟩] 100 ∧
      (1 ≤ 2 ∧ 3 < 5) := by
  refine ⟨by decide, by decide, by decide, by decide⟩

/-- C1 counterexample: two adjacent css regions (offsets `[0, 2)` and
`[2, 4)`) in a document of length 4.  `getLanguageRanges` emits the two
clipped region ranges back to back with no host-language gap between them,
so the output does not strictly alternate host gaps and region ranges. -/
theorem getLanguageRanges_not_alternating :
    getLanguageRanges 4 [⟨some "css", 0, 2, false⟩, ⟨some "css", 2, 4, false⟩] =
        [⟨some "css", 0, 2, false⟩, ⟨some "css", 2, 4, false⟩] ∧
      ¬HostAlternating
        (getLanguageRanges 4 [⟨some "css", 0, 2, false⟩, ⟨some "css", 2, 4, false⟩]) := by
  constructor
  · decide
  · intro h
    have : ((some "css" : Option String) == some "html") ≠
        ((some "css" : Option String) == some "html") := by
      have h2 := h
      rw [show getLanguageRanges 4 [⟨some "css", 0, 2, false⟩, ⟨some "css", 2, 4, false⟩] =
        [⟨some "css", 0, 2, false⟩, ⟨some "css", 2, 4, false⟩] from by decide] at h2
      simp [HostAlternating] at h2
    exact this rfl

/-- C2 counterexample: the host document `a\n` with no regions.  The
synthetic css sub-document's text is `\n` — length 1, while the host text
has length 2 — because `substituteWithWhitespace` drops the non-line-break
characters that precede a line break, so the claimed length equality fails
(the line count, 2, is preserved). -/
theorem getEmbeddedDocument_length_counterexample :
    getEmbeddedDocumentText "css" false "a\n".toList [] = some ['\n'] ∧
      ¬(∀ out, getEmbeddedDocumentText "css" false "a\n".toList [] = some out →
        out.length = ("a\n".toList).length) := by
  constructor
  · decide
  · intro h
    have := h ['\n'] (by decide)
    simp at this

/-- C5 counterexample: 31 strictly nested ranges `(i, 100 - i)` with
requested maximum 30.  The claim's minimal level `L` is 30 (cumulative 30
below it, plus 1 at it, exceeds 30), so every range at levels 0–29 should be
included unconditionally; but the source never counts levels at or above 30,
its level loop therefore never breaks, `maxLevel` stays 0 with the `entries`
counter already at 30, and the output is empty. -/
theorem limitRanges_depth_cap_counterexample :
    limitRanges ((List.range 31).map fun i => ⟨i, 100 - i⟩) 30 = [] ∧
      specMinLevel
        (nestingLevelsOf (stableSort foldingLe ((List.range 31).map fun i => ⟨i, 100 - i⟩)))
        30 = some 30 ∧
      (nestingLevelsOf (stableSort foldingLe ((List.range 31).map fun i => ⟨i, 100 - i⟩))).get? 1 =
        some (some 1) := by
  refine ⟨by decide, by decide, by decide⟩

/-- C6 counterexample: one token (line 4, character 0, length 5) and two
*overlapping* query ranges, one ending at (4, 2) and one at (10, 0), both
starting at (0, 0).  The token lies entirely within the second range, yet
the forward merge only tests it against the first (which still overlaps the
token start), so the emitted stream — and hence its decoding — is empty
instead of reconstructing the token. -/
theorem encodeTokens_overlap_counterexample :
    encodeTokens [⟨⟨4, 0⟩, 5, 0, 0⟩] [⟨⟨0, 0⟩, ⟨4, 2⟩⟩, ⟨⟨0, 0⟩, ⟨10, 0⟩⟩] = [] ∧
      decodeStream (encodeTokens [⟨⟨4, 0⟩, 5, 0, 0⟩] [⟨⟨0, 0⟩, ⟨4, 2⟩⟩, ⟨⟨0, 0⟩, ⟨10, 0⟩⟩]) 0 0 = [] ∧
      tokenAccepted ⟨⟨0, 0⟩, ⟨10, 0⟩⟩ ⟨⟨4, 0⟩, 5, 0, 0⟩ = true := by
  refine ⟨by decide, by decide, by decide⟩

theorem levelScan_get? (rs : List FoldingRange) :
    ∀ (st : LevelState) (i : Nat), i < rs.length →
      (levelScan st rs).get? i =
        some (levelStep ((rs.take i).foldl (fun s r => (levelStep s r).1) st)
          (rs.getD i ⟨0, 0⟩)).2 := by
  induction rs with
  | nil => intro st i h; simp at h
  | cons r rest ih =>
    intro st i h
    cases i with
    | zero => simp [levelScan]
    | succ n =>
      have hn : n < rest.length := by simpa using h
      simpa [levelScan, List.take_succ_cons, List.getD_cons_succ] using ih (levelStep st r).1 n hn

theorem selectRanges_eraseIdx (ps : List (FoldingRange × Option Nat)) :
    ∀ (i : Nat) (r : FoldingRange), ps.get? i = some (r, none) →
      ∀ (m ml e : Nat), selectRanges m ml ps e = selectRanges m ml (ps.eraseIdx i) e := by
  induction ps with
  | nil => intro i r h; simp at h
  | cons p rest ih =>
    intro i r h m ml e
    cases i with
    | zero =>
      simp only [List.get?] at h
      obtain rfl : p = (r, none) := by injection h
      simp [selectRanges, List.eraseIdx]
    | succ n =>
      simp only [List.get?] at h
      obtain ⟨pr, plv⟩ := p
      simp only [List.eraseIdx]
      match plv with
      | none => simpa [selectRanges] using ih n r h m ml e
      | some lv =>
        by_cases h1 : lv < ml
        · simp [selectRanges, h1, ih n r h m ml e]
        · by_cases h2 : lv = ml
          · by_cases h3 : e < m
            · simp [selectRanges, h1, h2, h3, ih n r h m ml (e + 1)]
            · simp [selectRanges, h1, h2, h3, ih n r h m ml (e + 1)]
          · simp [selectRanges, h1, h2, ih n r h m ml e]

theorem zip_get?_of {α β : Type} (a : List α) :
    ∀ (b : List β) (i : Nat) (x : α) (y : β), a.get? i = some x → b.get? i = some y →
      (a.zip b).get? i = some (x, y) := by
  induction a with
  | nil => intro b i x y hx; simp at hx
  | cons p arest ih =>
    intro b i x y hx hy
    match b with
    | [] => simp at hy
    | q :: brest =>
      cases i with
      | zero =>
        simp only [List.get?] at hx hy
        injection hx with hx'
        injection hy with hy'
        simp [List.zip_cons_cons, hx', hy']
      | succ n =>
        simp only [List.get?] at hx hy
        simpa [List.zip_cons_cons] using ih brest n x y hx hy

/-- C10 (confirmed): during the nesting-level pass over the sorted list, an
entry whose start line is not strictly greater than the start line of the
current top-of-stack range is assigned no nesting level, and the returned
list is (for any requested maximum, including maxima exceeding the input
count) exactly the selection over the remaining entries — the unleveled
entry is unconditionally excluded. -/
theorem limitRanges_unleveled_excluded (ranges : List FoldingRange) (maxRanges i : Nat)
    (t entry : FoldingRange)
    (htop : (levelStateAt (stableSort foldingLe ranges) i).top = some t)
    (hget : (stableSort foldingLe ranges).get? i = some entry)
    (hle : entry.startLine ≤ t.startLine) :
    (nestingLevelsOf (stableSort foldingLe ranges)).get? i = some none ∧
      limitRanges ranges maxRanges = selectRanges maxRanges
        (findMaxLevel (fun l => levelCount (nestingLevelsOf (stableSort foldingLe ranges)) l)
          maxRanges 0 0 30).1
        (((stableSort foldingLe ranges).zip
            (nestingLevelsOf (stableSort foldingLe ranges))).eraseIdx i)
        (findMaxLevel (fun l => levelCount (nestingLevelsOf (stableSort foldingLe ranges)) l)
          maxRanges 0 0 30).2 := by
  have hi : i < (stableSort foldingLe ranges).length := by
    by_contra hcon
    rw [List.get?_eq_none.2 (Nat.le_of_not_lt hcon)] at hget
    exact Option.noConfusion hget
  have hgetD : (stableSort foldingLe ranges).getD i ⟨0, 0⟩ = entry := by
    simp [List.getD, ← List.get?_eq_getElem?, hget]
  have hstep : (levelStep (levelStateAt (stableSort foldingLe ranges) i) entry).2 = none := by
    rw [levelStep, htop]
    simp [Nat.not_lt.2 hle]
  have hlev : (nestingLevelsOf (stableSort foldingLe ranges)).get? i = some none := by
    rw [nestingLevelsOf, levelScan_get? _ _ i hi, hgetD]
    have heq : (List.take i (stableSort foldingLe ranges)).foldl
        (fun s r => (levelStep s r).1) ⟨[], none⟩ =
        levelStateAt (stableSort foldingLe ranges) i := rfl
    rw [heq, hstep]
  refine ⟨hlev, ?_⟩
  have hzip : ((stableSort foldingLe ranges).zip
      (nestingLevelsOf (stableSort foldingLe ranges))).get? i = some (entry, none) :=
    zip_get?_of _ _ i entry none hget hlev
  rw [limitRanges]
  exact selectRanges_eraseIdx _ i entry hzip _ _ _

/-- C10 witness: two ranges starting on line 0; the sorted list is
`[(0, 3), (0, 5)]`, the second entry starts on the top-of-stack's start
line, gets no level and is excluded although the maximum (10) exceeds the
input count (2). -/
theorem limitRanges_unleveled_excluded_witness :
    (nestingLevelsOf (stableSort foldingLe [⟨0, 5⟩, ⟨0, 3⟩])).get? 1 = some none ∧
      limitRanges [⟨0, 5⟩, ⟨0, 3⟩] 10 = selectRanges 10
        (findMaxLevel (fun l => levelCount (nestingLevelsOf (stableSort foldingLe [⟨0, 5⟩, ⟨0, 3⟩])) l)
          10 0 0 30).1
        (((stableSort foldingLe [⟨0, 5⟩, ⟨0, 3⟩]).zip
            (nestingLevelsOf (stableSort foldingLe [⟨0, 5⟩, ⟨0, 3⟩]))).eraseIdx 1)
        (findMaxLevel (fun l => levelCount (nestingLevelsOf (stableSort foldingLe [⟨0, 5⟩, ⟨0, 3⟩])) l)
          10 0 0 30).2 :=
  limitRanges_unleveled_excluded [⟨0, 5⟩, ⟨0, 3⟩] 10 1 ⟨0, 3⟩ ⟨0, 5⟩
    (by decide) (by decide) (by decide)

theorem tilesFrom_nil (a b : Nat) : TilesFrom a [] b ↔ a = b := Iff.rfl

theorem tilesFrom_cons (a b : Nat) (r : LanguageRange) (rest : List LanguageRange) :
    TilesFrom a (r :: rest) b ↔ (r.start = a ∧ a < r.end_ ∧ TilesFrom r.end_ rest b) := Iff.rfl

theorem chainStarts (l : List EmbeddedRegion) (x : EmbeddedRegion)
    (hb : ∀ r ∈ l, r.start ≤ r.end_)
    (hc : List.Chain' (fun a b => a.end_ ≤ b.start) (x :: l)) :
    ∀ r ∈ l, x.end_ ≤ r.start := by
  induction l generalizing x with
  | nil => intro r hr; simp at hr
  | cons y rest ih =>
    intro r hr
    have hxy : x.end_ ≤ y.start := (List.chain'_cons.1 hc).1
    rcases List.mem_cons.1 hr with rfl | hr
    · exact hxy
    · have hyr : y.end_ ≤ r.start :=
        ih y (fun r hr => hb r (List.mem_cons_of_mem _ hr)) (List.chain'_cons.1 hc).2 r hr
      exact le_trans hxy (le_trans (hb y (List.mem_cons_self _ _)) hyr)

theorem getLanguageRanges_tiles_aux (docLen : Nat) (regions : List EmbeddedRegion) :
    ∀ cur : Nat, (∀ r ∈ regions, r.start ≤ r.end_) →
      List.Chain' (fun a b => a.end_ ≤ b.start) regions → cur ≤ docLen →
      (∀ r ∈ regions, cur ≤ r.start) →
      TilesFrom cur (getLanguageRangesAux docLen cur regions) docLen := by
  induction regions with
  | nil =>
    intro cur _ _ hcur _
    by_cases h : cur < docLen
    · simp only [getLanguageRangesAux, if_pos h]
      rw [tilesFrom_cons]
      exact ⟨rfl, h, rfl⟩
    · have heq : cur = docLen := Nat.le_antisymm hcur (Nat.le_of_not_lt h)
      simp only [getLanguageRangesAux, if_neg h]
      exact (tilesFrom_nil _ _).2 heq
  | cons region rest ih =>
    intro cur hb hc hcur hstarts
    have hbr : region.start ≤ region.end_ := hb region (List.mem_cons_self _ _)
    have hcs : cur ≤ region.start := hstarts region (List.mem_cons_self _ _)
    have hb' : ∀ r ∈ rest, r.start ≤ r.end_ := fun r hr => hb r (List.mem_cons_of_mem _ hr)
    have hc' : List.Chain' (fun a b => a.end_ ≤ b.start) rest := (List.chain'_cons'.1 hc).2
    have hrest : ∀ r ∈ rest, region.end_ ≤ r.start := chainStarts rest region hb' hc
    by_cases hA : region.end_ > cur ∧ region.start < docLen
    · have hmax : max region.start cur = region.start := Nat.max_eq_left hcs
      have hminLe : min region.end_ docLen ≤ docLen := Nat.min_le_right _ _
      have hsLe : region.start ≤ min region.end_ docLen :=
        Nat.le_min.2 ⟨hbr, Nat.le_of_lt hA.2⟩
      have hstarts' : ∀ r ∈ rest, min region.end_ docLen ≤ r.start :=
        fun r hr => le_trans (Nat.min_le_left _ _) (hrest r hr)
      have htail : TilesFrom (min region.end_ docLen)
          (getLanguageRangesAux docLen (min region.end_ docLen) rest) docLen :=
        ih (min region.end_ docLen) hb' hc' hminLe hstarts'
      by_cases hgap : cur < region.start
      · by_cases hreg : min region.end_ docLen > region.start
        · simp only [getLanguageRangesAux, if_pos hA, if_pos hgap, if_pos hreg, hmax,
            List.singleton_append, List.cons_append, List.nil_append]
          rw [tilesFrom_cons, tilesFrom_cons]
          exact ⟨rfl, hgap, rfl, hreg, htail⟩
        · have heq : min region.end_ docLen = region.start :=
            Nat.le_antisymm (Nat.le_of_not_lt hreg) hsLe
          simp only [getLanguageRangesAux, if_pos hA, if_pos hgap, if_neg hreg, hmax,
            List.singleton_append, List.nil_append]
          rw [heq]
          rw [heq] at htail
          rw [tilesFrom_cons]
          exact ⟨rfl, hgap, htail⟩
      · have hceq : cur = region.start := Nat.le_antisymm hcs (Nat.le_of_not_lt hgap)
        by_cases hreg : min region.end_ docLen > region.start
        · simp only [getLanguageRangesAux, if_pos hA, if_neg hgap, if_pos hreg, hmax,
            List.singleton_append, List.nil_append]
          rw [tilesFrom_cons]
          have hlt : cur < min region.end_ docLen := by rw [hceq]; exact hreg
          exact ⟨hceq.symm, hlt, htail⟩
        · have heq2 : min region.end_ docLen = cur :=
            (Nat.le_antisymm (Nat.le_of_not_lt hreg) hsLe).trans hceq.symm
          simp only [getLanguageRangesAux, if_pos hA, if_neg hgap, if_neg hreg,
            List.nil_append]
          rw [heq2]
          rw [heq2] at htail
          exact htail
    · have hstarts' : ∀ r ∈ rest, cur ≤ r.start := fun r hr =>
        hstarts r (List.mem_cons_of_mem _ hr)
      simpa [getLanguageRangesAux, hA] using ih cur hb' hc' hcur hstarts'

theorem getLanguageRanges_shape_aux (docLen : Nat) (regions : List EmbeddedRegion) :
    ∀ cur : Nat, ∀ lr ∈ getLanguageRangesAux docLen cur regions,
      lr.languageId = some "html" ∨
        ∃ r ∈ regions, lr.languageId = r.languageId ∧ lr.attributeValue = r.attributeValue ∧
          r.start ≤ lr.start ∧ lr.end_ ≤ r.end_ := by
  induction regions with
  | nil =>
    intro cur lr hlr
    by_cases h : cur < docLen
    · simp [getLanguageRangesAux, h] at hlr
      subst hlr
      exact Or.inl rfl
    · simp [getLanguageRangesAux, h] at hlr
  | cons region rest ih =>
    intro cur lr hlr
    by_cases hA : region.end_ > cur ∧ region.start < docLen
    · simp only [getLanguageRangesAux, if_pos hA, List.mem_append] at hlr
      rcases hlr with (hlr | hlr) | hlr
      · by_cases hgap : cur < region.start
        · simp [hgap] at hlr
          subst hlr
          exact Or.inl rfl
        · simp [hgap] at hlr
      · by_cases hreg : min region.end_ docLen > region.start
        · simp [hreg] at hlr
          subst hlr
          refine Or.inr ⟨region, List.mem_cons_self _ _, rfl, rfl, Nat.le_max_left _ _,
            Nat.min_le_left _ _⟩
        · simp [hreg] at hlr
      · rcases ih (min region.end_ docLen) lr hlr with h | ⟨r, hr, h1, h2, h3, h4⟩
        · exact Or.inl h
        · exact Or.inr ⟨r, List.mem_cons_of_mem _ hr, h1, h2, h3, h4⟩
    · simp only [getLanguageRangesAux, if_neg hA] at hlr
      rcases ih cur lr hlr with h | ⟨r, hr, h1, h2, h3, h4⟩
      · exact Or.inl h
      · exact Or.inr ⟨r, List.mem_cons_of_mem _ hr, h1, h2, h3, h4⟩

/-- C1 (amended): for every document whose region list consists of intervals
(`start ≤ end`) sorted ascending and non-overlapping, `getLanguageRanges`
over the full document range returns ranges that are contiguous and
non-overlapping — each emitted range starts exactly where the previous one
ends, the first starts at offset 0, the last ends at the document length —
so their spans exactly tile `[0, documentLength)`, and every emitted range
is either a host-language gap or a clipped sub-span of a region with that
region's language and attribute flag.  (Strict alternation of gaps and
region ranges does not hold: adjacent regions yield consecutive region
ranges.) -/
theorem getLanguageRanges_tiles (docLen : Nat) (regions : List EmbeddedRegion)
    (hb : ∀ r ∈ regions, r.start ≤ r.end_)
    (hs : List.Chain' (fun a b => a.end_ ≤ b.start) regions) :
    TilesFrom 0 (getLanguageRanges docLen regions) docLen ∧
      ∀ lr ∈ getLanguageRanges docLen regions,
        lr.languageId = some "html" ∨
          ∃ r ∈ regions, lr.languageId = r.languageId ∧ lr.attributeValue = r.attributeValue ∧
            r.start ≤ lr.start ∧ lr.end_ ≤ r.end_ :=
  ⟨getLanguageRanges_tiles_aux docLen regions 0 hb hs (Nat.zero_le _) (fun _ _ => Nat.zero_le _),
   getLanguageRanges_shape_aux docLen regions 0⟩

/-- C1 witness: a document of length 6 with one css region `[2, 4)`; the
full-range decomposition tiles `[0, 6)` and consists of host gaps and the
clipped region. -/
theorem getLanguageRanges_tiles_witness :
    TilesFrom 0 (getLanguageRanges 6 [⟨some "css", 2, 4, false⟩]) 6 ∧
      ∀ lr ∈ getLanguageRanges 6 [⟨some "css", 2, 4, false⟩],
        lr.languageId = some "html" ∨
          ∃ r ∈ [(⟨some "css", 2, 4, false⟩ : EmbeddedRegion)],
            lr.languageId = r.languageId ∧ lr.attributeValue = r.attributeValue ∧
              r.start ≤ lr.start ∧ lr.end_ ≤ r.end_ :=
  getLanguageRanges_tiles 6 [⟨some "css", 2, 4, false⟩] (by decide) (by simp)

theorem wsLoop_acc (slice : List Char) :
    ∀ (ws : Nat) (acc : List Char),
      wsLoop slice ws acc = ((wsLoop slice ws []).1, acc ++ (wsLoop slice ws []).2) := by
  induction slice with
  | nil => intro ws acc; simp [wsLoop]
  | cons c rest ih =>
    intro ws acc
    by_cases h : isNL c
    · rw [wsLoop, if_pos h, wsLoop, if_pos h, ih 0 (acc ++ [c]), ih 0 ([] ++ [c])]
      simp
    · rw [wsLoop, if_neg h, wsLoop, if_neg h, ih (ws + 1) acc]

theorem wsLoop_snd (slice : List Char) :
    ∀ ws : Nat, (wsLoop slice ws []).2 = slice.filter isNL := by
  induction slice with
  | nil => intro ws; simp [wsLoop]
  | cons c rest ih =>
    intro ws
    by_cases h : isNL c
    · rw [wsLoop, if_pos h, wsLoop_acc, List.filter_cons_of_pos h]
      simp [ih 0]
    · rw [wsLoop, if_neg h, List.filter_cons_of_neg h, ih (ws + 1)]

theorem wsLoop_fst_le (slice : List Char) :
    ∀ ws : Nat, (wsLoop slice ws []).1 + (slice.filter isNL).length ≤ ws + slice.length := by
  induction slice with
  | nil => intro ws; simp [wsLoop]
  | cons c rest ih =>
    intro ws
    by_cases h : isNL c
    · rw [wsLoop, if_pos h, wsLoop_acc, List.filter_cons_of_pos h]
      have := ih 0
      simp only [List.length_cons, List.length]
      omega
    · rw [wsLoop, if_neg h, List.filter_cons_of_neg h]
      have := ih (ws + 1)
      simp only [List.length_cons]
      omega

theorem subst_count (source : List Char) (start end_ : Nat) (old before after : List Char)
    (out : List Char)
    (hout : substituteWithWhitespace source start end_ old before after = some out) :
    out.count '\n' = source.count '\n' + before.count '\n' +
      ((old.drop (start + before.length)).take (end_ - (start + before.length))).count '\n' +
      after.count '\n' := by
  rw [substituteWithWhitespace] at hout
  split at hout
  · injection hout with hout
    subst hout
    simp only [List.count_append, wsLoop_snd]
    rw [List.count_filter (by decide : isNL '\n' = true)]
    rw [List.count_replicate]
    simp
  · exact Option.noConfusion hout

theorem subst_len (source : List Char) (start end_ : Nat) (old before after : List Char)
    (out : List Char)
    (hout : substituteWithWhitespace source start end_ old before after = some out) :
    out.length ≤ source.length + before.length +
      ((old.drop (start + before.length)).take (end_ - (start + before.length))).length := by
  rw [substituteWithWhitespace] at hout
  split at hout
  · next hle =>
    injection hout with hout
    subst hout
    have h1 := wsLoop_fst_le
      ((old.drop (start + before.length)).take (end_ - (start + before.length))) 0
    simp only [List.length_append, List.length_replicate, wsLoop_snd] at *
    omega
  · exact Option.noConfusion hout

theorem getSuffixOf_no_nl (r : EmbeddedRegion) : (getSuffixOf r).count '\n' = 0 := by
  rw [getSuffixOf]
  split <;> [skip; rfl]
  split <;> [rfl; skip]
  split <;> rfl

theorem getPrefixOf_no_nl (r : EmbeddedRegion) : (getPrefixOf r).count '\n' = 0 := by
  rw [getPrefixOf]
  split <;> rfl

theorem chainStartsSuffix (l : List EmbeddedRegion) (x : EmbeddedRegion)
    (hb : ∀ r ∈ l, r.start ≤ r.end_)
    (hc : List.Chain' (fun a b => a.end_ + (getSuffixOf a).length ≤ b.start) (x :: l)) :
    ∀ r ∈ l, x.end_ + (getSuffixOf x).length ≤ r.start := by
  induction l generalizing x with
  | nil => intro r hr; simp at hr
  | cons y rest ih =>
    intro r hr
    have hxy : x.end_ + (getSuffixOf x).length ≤ y.start := (List.chain'_cons.1 hc).1
    rcases List.mem_cons.1 hr with rfl | hr
    · exact hxy
    · have hyr : y.end_ + (getSuffixOf y).length ≤ r.start :=
        ih y (fun r hr => hb r (List.mem_cons_of_mem _ hr)) (List.chain'_cons.1 hc).2 r hr
      have hy : y.start ≤ y.end_ := hb y (List.mem_cons_self _ _)
      omega

theorem count_take_add (old : List Char) (a b : Nat) (hab : a ≤ b) :
    (old.take b).count '\n' = (old.take a).count '\n' + ((old.drop a).take (b - a)).count '\n' := by
  have hb' : b = a + (b - a) := (Nat.add_sub_cancel' hab).symm
  conv_lhs => rw [hb', List.take_add]
  rw [List.count_append]

theorem span_count_eq (old : List Char) (cur sufLen e : Nat)
    (hcs : cur + sufLen ≤ e)
    (hnlc : ((old.drop cur).take sufLen).all (fun c => !isNL c)) :
    ((old.drop (cur + sufLen)).take (e - (cur + sufLen))).count '\n' =
      ((old.drop cur).take (e - cur)).count '\n' := by
  have hsplit : (old.drop cur).take (e - cur) =
      ((old.drop cur).take (e - cur)).take sufLen ++ ((old.drop cur).take (e - cur)).drop sufLen :=
    (List.take_append_drop _ _).symm
  have htake : ((old.drop cur).take (e - cur)).take sufLen = (old.drop cur).take sufLen := by
    rw [List.take_take, Nat.min_eq_left (by omega)]
  have hdrop : ((old.drop cur).take (e - cur)).drop sufLen =
      (old.drop (cur + sufLen)).take (e - (cur + sufLen)) := by
    rw [List.drop_take, List.drop_drop, Nat.sub_sub]
  have hzero : ((old.drop cur).take sufLen).count '\n' = 0 := by
    rw [List.count_eq_zero]
    intro hmem
    have := List.all_eq_true.1 hnlc '\n' hmem
    simp [isNL] at this
  calc ((old.drop (cur + sufLen)).take (e - (cur + sufLen))).count '\n'
      = (((old.drop cur).take (e - cur)).drop sufLen).count '\n' := by rw [hdrop]
    _ = ((old.drop cur).take (e - cur)).count '\n' := by
        conv_rhs => rw [hsplit]
        rw [List.count_append, htake, hzero, Nat.zero_add]

theorem embedLoop_spec (lang : String) (ia : Bool) (old : List Char)
    (regions : List EmbeddedRegion) :
    ∀ (result : List Char) (cur : Nat) (suf : List Char),
      (∀ r ∈ regions, r.start ≤ r.end_) →
      List.Chain' (fun a b => a.end_ + (getSuffixOf a).length ≤ b.start) regions →
      (∀ r ∈ regions, r.end_ + (getSuffixOf r).length ≤ old.length) →
      (∀ r ∈ regions, ((old.drop r.end_).take (getSuffixOf r).length).all (fun c => !isNL c)) →
      (∀ r ∈ regions, cur + suf.length ≤ r.start) →
      cur + suf.length ≤ old.length →
      ((old.drop cur).take suf.length).all (fun c => !isNL c) →
      suf.count '\n' = 0 →
      result.count '\n' = (old.take cur).count '\n' →
      result.length ≤ cur →
      ∀ out, ((embedLoop lang ia old regions (result, cur, suf)).bind fun st =>
          substituteWithWhitespace st.1 st.2.1 old.length old st.2.2 []) = some out →
        out.count '\n' = old.count '\n' ∧ out.length ≤ old.length := by
  induction regions with
  | nil =>
    intro result cur suf _ _ _ _ _ hcurb hnlc hsufnl hres hlen out hsome
    simp only [embedLoop, Option.some_bind] at hsome
    have hcount := subst_count result cur old.length old suf [] out hsome
    have hlenout := subst_len result cur old.length old suf [] out hsome
    have hspan := span_count_eq old cur suf.length old.length hcurb hnlc
    have hadd := count_take_add old cur old.length (by omega)
    rw [List.take_length] at hadd
    have hslicelen : ((old.drop (cur + suf.length)).take
        (old.length - (cur + suf.length))).length ≤ old.length - (cur + suf.length) := by
      rw [List.length_take]
      exact Nat.min_le_left _ _
    constructor
    · simp only [List.count_nil] at hcount
      omega
    · omega
  | cons region rest ih =>
    intro result cur suf hb hchain hbound hnlr hstarts hcurb hnlc hsufnl hres hlen out hsome
    have hb' : ∀ r ∈ rest, r.start ≤ r.end_ := fun r hr => hb r (List.mem_cons_of_mem _ hr)
    have hchain' : List.Chain' (fun a b => a.end_ + (getSuffixOf a).length ≤ b.start) rest :=
      (List.chain'_cons'.1 hchain).2
    have hbound' : ∀ r ∈ rest, r.end_ + (getSuffixOf r).length ≤ old.length :=
      fun r hr => hbound r (List.mem_cons_of_mem _ hr)
    have hnlr' : ∀ r ∈ rest, ((old.drop r.end_).take (getSuffixOf r).length).all
        (fun c => !isNL c) := fun r hr => hnlr r (List.mem_cons_of_mem _ hr)
    by_cases hsel : regionSelected lang ia region = true
    · have hstartr : cur + suf.length ≤ region.start := hstarts region (List.mem_cons_self _ _)
      have hber : region.start ≤ region.end_ := hb region (List.mem_cons_self _ _)
      cases hsub : substituteWithWhitespace result cur region.start old suf (getPrefixOf region) with
      | none => simp [embedLoop, hsel, hsub] at hsome
      | some res1 =>
        simp only [embedLoop, hsel, if_pos, hsub] at hsome
        have hcount1 := subst_count result cur region.start old suf (getPrefixOf region) res1 hsub
        have hlen1 := subst_len result cur region.start old suf (getPrefixOf region) res1 hsub
        have hspan := span_count_eq old cur suf.length region.start hstartr hnlc
        have hadd := count_take_add old cur region.start (by omega)
        have hadd2 := count_take_add old region.start region.end_ hber
        have hpre := getPrefixOf_no_nl region
        have hslicelen : ((old.drop (cur + suf.length)).take
            (region.start - (cur + suf.length))).length ≤ region.start - (cur + suf.length) := by
          rw [List.length_take]
          exact Nat.min_le_left _ _
        have hcontlen : ((old.drop region.start).take (region.end_ - region.start)).length ≤
            region.end_ - region.start := by
          rw [List.length_take]
          exact Nat.min_le_left _ _
        refine ih (res1 ++ (old.drop region.start).take (region.end_ - region.start))
          region.end_ (getSuffixOf region) hb' hchain' hbound' hnlr'
          (chainStartsSuffix rest region hb' hchain)
          (hbound region (List.mem_cons_self _ _))
          (hnlr region (List.mem_cons_self _ _))
          (getSuffixOf_no_nl region) ?_ ?_ out hsome
        · rw [List.count_append]
          omega
        · rw [List.length_append]
          omega
    · simp only [embedLoop, hsel, if_neg, Bool.false_eq_true, not_false_eq_true] at hsome
      exact ih result cur suf hb' hchain' hbound' hnlr'
        (fun r hr => hstarts r (List.mem_cons_of_mem _ hr)) hcurb hnlc hsufnl hres hlen out hsome

/-- C2 (amended): for every host document without carriage returns whose
region list consists of intervals sorted ascending and separated (from the
previous region's end) by at least the previous region's suffix length,
lying within the document with room for their suffixes, and whose
suffix-overwritten characters are not line breaks, every successfully built
synthetic sub-document text (`getEmbeddedDocument`) has exactly the same
line count as the host document's text and a character length *at most* —
not exactly — the host's length. -/
theorem getEmbeddedDocument_lineCount (lang : String) (ia : Bool) (old : List Char)
    (regions : List EmbeddedRegion)
    (hb : ∀ r ∈ regions, r.start ≤ r.end_)
    (hchain : List.Chain' (fun a b => a.end_ + (getSuffixOf a).length ≤ b.start) regions)
    (hbound : ∀ r ∈ regions, r.end_ + (getSuffixOf r).length ≤ old.length)
    (hnlr : ∀ r ∈ regions, ((old.drop r.end_).take (getSuffixOf r).length).all (fun c => !isNL c))
    (hcr : '\r' ∉ old) :
    ∀ out, getEmbeddedDocumentText lang ia old regions = some out →
      docLineCount out = docLineCount old ∧ out.length ≤ old.length := by
  intro out hsome
  rw [getEmbeddedDocumentText] at hsome
  have := embedLoop_spec lang ia old regions [] 0 [] hb hchain hbound hnlr
    (fun r _ => by simp) (by simp) (by simp) (by simp) (by simp) (by simp) out hsome
  exact ⟨by rw [docLineCount, docLineCount, this.1], this.2⟩

/-- C2 witness: host text `a\nbc` with one css region `[2, 3)`; the
projection yields the text `\nb` followed by one space, which has the
host's line count (2) and a length (3) at most the host's (4). -/
theorem getEmbeddedDocument_lineCount_witness :
    docLineCount ['\n', 'b', ' '] = docLineCount "a\nbc".toList ∧
      (['\n', 'b', ' '] : List Char).length ≤ ("a\nbc".toList).length :=
  getEmbeddedDocument_lineCount "css" false "a\nbc".toList [⟨some "css", 2, 3, false⟩]
    (by decide) (by simp) (by decide) (by decide) (by decide) ['\n', 'b', ' '] (by decide)

theorem cumBelow_succ (levels : List (Option Nat)) (L : Nat) :
    cumBelow levels (L + 1) = cumBelow levels L + levelCount levels L := by
  rw [cumBelow, cumBelow, List.range_succ, List.foldl_append]
  rfl

theorem countP_below_succ (levels : List (Option Nat)) (L : Nat) :
    levels.countP (belowP (L + 1)) = levels.countP (belowP L) + levels.count (some L) := by
  induction levels with
  | nil => simp
  | cons o rest ih =>
    rw [List.countP_cons, List.countP_cons, List.count_cons, ih]
    cases o with
    | none => simp [belowP]
    | some v =>
      by_cases hv : v < L
      · simp only [belowP, decide_eq_true_eq, Option.some.injEq, beq_iff_eq]
        rw [if_pos (by omega : v < L + 1), if_pos hv, if_neg (by omega : ¬v = L)]
        omega
      · by_cases hvL : v = L
        · subst hvL
          simp only [belowP, decide_eq_true_eq, Option.some.injEq, beq_iff_eq]
          rw [if_pos (by omega : v < v + 1), if_neg hv]
          simp only [eq_self_iff_true, if_true]
          omega
        · simp only [belowP, decide_eq_true_eq, Option.some.injEq, beq_iff_eq]
          rw [if_neg (by omega : ¬v < L + 1), if_neg hv, if_neg hvL]
          omega

theorem cumBelow_eq_countP (levels : List (Option Nat)) :
    ∀ L : Nat, cumBelow levels L = levels.countP (belowP L) := by
  intro L
  induction L with
  | zero =>
    rw [cumBelow]
    simp only [List.range_zero, List.foldl_nil]
    symm
    rw [List.countP_eq_zero]
    intro o _
    cases o <;> simp [belowP]
  | succ n ih =>
    rw [cumBelow_succ, countP_below_succ, ih, levelCount]

theorem countP_zip_snd (s : List FoldingRange) :
    ∀ (levels : List (Option Nat)) (p : Option Nat → Bool), s.length = levels.length →
      (s.zip levels).countP (fun pr => p pr.2) = levels.countP p := by
  induction s with
  | nil =>
    intro levels p hlen
    match levels with
    | [] => simp
    | _ :: _ => simp at hlen
  | cons x rest ih =>
    intro levels p hlen
    match levels with
    | [] => simp at hlen
    | o :: lrest =>
      rw [List.zip_cons_cons, List.countP_cons, List.countP_cons,
        ih lrest p (by simpa using hlen)]

theorem specSelect_length (cutoff : Nat) :
    ∀ (ps : List (FoldingRange × Option Nat)) (q : Nat),
      (specSelect cutoff ps q).length ≤ ps.countP (fun pr => belowP cutoff pr.2) + q := by
  intro ps
  induction ps with
  | nil => intro q; simp [specSelect]
  | cons p rest ih =>
    intro q
    obtain ⟨r, lv⟩ := p
    cases lv with
    | none =>
      rw [specSelect, List.countP_cons]
      have := ih q
      have hb : belowP cutoff (none : Option Nat) = false := rfl
      simp only [hb, Bool.false_eq_true, if_false]
      omega
    | some v =>
      by_cases h1 : v < cutoff
      · rw [specSelect, if_pos h1, List.countP_cons]
        have := ih q
        have hb : belowP cutoff (some v) = true := by simp [belowP]; omega
        simp only [hb, List.length_cons, if_true]
        omega
      · have hb : belowP cutoff (some v) = false := by simp [belowP]; omega
        by_cases h2 : v = cutoff
        · by_cases h3 : q = 0
          · rw [specSelect, if_neg h1, if_pos h2, if_pos h3, List.countP_cons]
            have := ih q
            simp only [hb, Bool.false_eq_true, if_false]
            omega
          · rw [specSelect, if_neg h1, if_pos h2, if_neg h3, List.countP_cons]
            have := ih (q - 1)
            simp only [hb, Bool.false_eq_true, if_false, List.length_cons]
            omega
        · rw [specSelect, if_neg h1, if_neg h2, List.countP_cons]
          have := ih q
          simp only [hb, Bool.false_eq_true, if_false]
          omega

theorem selectRanges_eq_specSelect (m cutoff : Nat) :
    ∀ (ps : List (FoldingRange × Option Nat)) (e : Nat),
      selectRanges m cutoff ps e = specSelect cutoff ps (m - e) := by
  intro ps
  induction ps with
  | nil => intro e; rfl
  | cons p rest ih =>
    intro e
    obtain ⟨r, lv⟩ := p
    cases lv with
    | none => rw [selectRanges, specSelect, ih e]
    | some v =>
      by_cases h1 : v < cutoff
      · rw [selectRanges, if_pos h1, specSelect, if_pos h1, ih e]
      · by_cases h2 : v = cutoff
        · by_cases h3 : e < m
          · have hq : ¬(m - e = 0) := by omega
            rw [selectRanges, if_neg h1, if_pos h2, if_pos h3, specSelect, if_neg h1, if_pos h2,
              if_neg hq, ih (e + 1), (by omega : m - (e + 1) = m - e - 1)]
          · have hq : m - e = 0 := by omega
            rw [selectRanges, if_neg h1, if_pos h2, if_neg h3, specSelect, if_neg h1, if_pos h2,
              if_pos hq, ih (e + 1), (by omega : m - (e + 1) = m - e)]
        · rw [selectRanges, if_neg h1, if_neg h2, specSelect, if_neg h1, if_neg h2, ih e]

theorem selectRanges_sublist (m cutoff : Nat) :
    ∀ (ps : List (FoldingRange × Option Nat)) (e : Nat),
      (selectRanges m cutoff ps e).Sublist (ps.map Prod.fst) := by
  intro ps
  induction ps with
  | nil => intro e; simp [selectRanges]
  | cons p rest ih =>
    intro e
    obtain ⟨r, lv⟩ := p
    cases lv with
    | none => exact (ih e).trans (List.sublist_cons_self _ _)
    | some v =>
      by_cases h1 : v < cutoff
      · rw [selectRanges, if_pos h1]
        exact (ih e).cons₂ r
      · by_cases h2 : v = cutoff
        · by_cases h3 : e < m
          · rw [selectRanges, if_neg h1, if_pos h2, if_pos h3]
            exact (ih (e + 1)).cons₂ r
          · rw [selectRanges, if_neg h1, if_pos h2, if_neg h3]
            exact (ih (e + 1)).trans (List.sublist_cons_self _ _)
        · rw [selectRanges, if_neg h1, if_neg h2]
          exact (ih e).trans (List.sublist_cons_self _ _)

theorem find?_range'_spec (p : Nat → Bool) :
    ∀ (len s L : Nat), (List.range' s len).find? p = some L →
      p L = true ∧ ∀ l, s ≤ l → l < L → p l = false := by
  intro len
  induction len with
  | zero => intro s L h; simp at h
  | succ n ih =>
    intro s L h
    rw [List.range'_succ s n 1] at h
    by_cases hp : p s
    · rw [List.find?_cons_of_pos _ hp] at h
      injection h with h
      subst h
      exact ⟨hp, fun l hl1 hl2 => absurd (lt_of_le_of_lt hl1 hl2) (lt_irrefl _)⟩
    · rw [List.find?_cons_of_neg _ hp] at h
      obtain ⟨h1, h2⟩ := ih (s + 1) L h
      refine ⟨h1, fun l hl1 hl2 => ?_⟩
      by_cases hls : l = s
      · subst hls; exact eq_false_of_ne_true hp
      · exact h2 l (by omega) hl2

theorem findMaxLevel_eq (levels : List (Option Nat)) (m L : Nat)
    (hmin : ∀ j, j < L → cumBelow levels j + levelCount levels j ≤ m)
    (hPL : m < cumBelow levels L + levelCount levels L)
    (hc0 : levelCount levels L ≠ 0) :
    ∀ (fuel l : Nat), l ≤ L → L < l + fuel →
      findMaxLevel (fun lv => levelCount levels lv) m l (cumBelow levels l) fuel =
        (L, cumBelow levels L) := by
  intro fuel
  induction fuel with
  | zero => intro l h1 h2; omega
  | succ f ihf =>
    intro l hlL hLf
    by_cases hl : l = L
    · subst hl
      rw [findMaxLevel, if_pos hc0, if_pos (by omega)]
    · have hlt : l < L := by omega
      rw [findMaxLevel]
      by_cases hcl : levelCount levels l ≠ 0
      · rw [if_pos hcl, if_neg (by have := hmin l hlt; omega)]
        have hrec := ihf (l + 1) (by omega) (by omega)
        rw [cumBelow_succ] at hrec
        exact hrec
      · rw [if_neg hcl]
        have hrec := ihf (l + 1) (by omega) (by omega)
        rw [cumBelow_succ, (by omega : levelCount levels l = 0)] at hrec
        simpa using hrec

theorem levelScan_length (rs : List FoldingRange) :
    ∀ st : LevelState, (levelScan st rs).length = rs.length := by
  induction rs with
  | nil => intro st; rfl
  | cons r rest ih => intro st; simp [levelScan, ih]

theorem orderedInsertB_length {α : Type} (le : α → α → Bool) (a : α) :
    ∀ l : List α, (orderedInsertB le a l).length = l.length + 1 := by
  intro l
  induction l with
  | nil => rfl
  | cons x xs ih =>
    rw [orderedInsertB]
    by_cases h : le a x
    · rw [if_pos h]; rfl
    · rw [if_neg h]
      simp [ih]

theorem stableSort_length {α : Type} (le : α → α → Bool) :
    ∀ l : List α, (stableSort le l).length = l.length := by
  intro l
  induction l with
  | nil => rfl
  | cons x xs ih => rw [stableSort, orderedInsertB_length, ih, List.length_cons]

/-- C5 (amended): for every folding-range list whose computed nesting levels
all lie below the source's internal cap of 30, and for which the spec's
cutoff exists — the minimal level `L` at which the cumulative count of
ranges at levels below `L` plus the count at level `L` exceeds the requested
maximum — `limitRanges` sorts the list by (start line, end line) and returns
exactly: all ranges assigned a level strictly below `L` unconditionally,
plus ranges at level `L` in sorted order up to the remaining quota
(maximum − cumulative count below `L`); the output is a sublist of the
sorted input (included ranges keep their sorted relative order), and its
count never exceeds the maximum nor the input count.  (Without the
below-30 restriction the claim fails: see the counterexample.) -/
theorem limitRanges_spec (ranges : List FoldingRange) (maxRanges L : Nat)
    (h30 : ∀ lv ∈ nestingLevelsOf (stableSort foldingLe ranges), ∀ v, lv = some v → v < 30)
    (hL : specMinLevel (nestingLevelsOf (stableSort foldingLe ranges)) maxRanges = some L) :
    limitRanges ranges maxRanges =
        specSelect L
          ((stableSort foldingLe ranges).zip (nestingLevelsOf (stableSort foldingLe ranges)))
          (maxRanges - cumBelow (nestingLevelsOf (stableSort foldingLe ranges)) L) ∧
      (limitRanges ranges maxRanges).Sublist (stableSort foldingLe ranges) ∧
      (limitRanges ranges maxRanges).length ≤ maxRanges ∧
      (limitRanges ranges maxRanges).length ≤ ranges.length := by
  rw [specMinLevel, List.range_eq_range'] at hL
  obtain ⟨hP, hminb⟩ := find?_range'_spec _ _ 0 L hL
  have hPL : maxRanges < cumBelow (nestingLevelsOf (stableSort foldingLe ranges)) L +
      levelCount (nestingLevelsOf (stableSort foldingLe ranges)) L := of_decide_eq_true hP
  have hmin : ∀ j, j < L → cumBelow (nestingLevelsOf (stableSort foldingLe ranges)) j +
      levelCount (nestingLevelsOf (stableSort foldingLe ranges)) j ≤ maxRanges := by
    intro j hj
    have := hminb j (Nat.zero_le _) hj
    exact Nat.le_of_not_lt (of_decide_eq_false this)
  have hcum0 : cumBelow (nestingLevelsOf (stableSort foldingLe ranges)) 0 = 0 := by
    simp [cumBelow]
  have hcumL : cumBelow (nestingLevelsOf (stableSort foldingLe ranges)) L ≤ maxRanges := by
    match L with
    | 0 => omega
    | L' + 1 =>
      have := hmin L' (by omega)
      rw [cumBelow_succ]
      omega
  have hc0 : levelCount (nestingLevelsOf (stableSort foldingLe ranges)) L ≠ 0 := by
    intro hz
    omega
  have hlen : (stableSort foldingLe ranges).length =
      (nestingLevelsOf (stableSort foldingLe ranges)).length := by
    rw [nestingLevelsOf, levelScan_length]
  have hfind : findMaxLevel
      (fun lv => levelCount (nestingLevelsOf (stableSort foldingLe ranges)) lv) maxRanges 0 0 30 =
      (L, cumBelow (nestingLevelsOf (stableSort foldingLe ranges)) L) := by
    have hL30 : L < 30 := by
      have hmem : (some L : Option Nat) ∈ nestingLevelsOf (stableSort foldingLe ranges) := by
        by_contra hnm
        exact hc0 (List.count_eq_zero.2 hnm)
      exact h30 (some L) hmem L rfl
    have := findMaxLevel_eq (nestingLevelsOf (stableSort foldingLe ranges)) maxRanges L
      hmin hPL hc0 30 0 (Nat.zero_le _) (by omega)
    rwa [hcum0] at this
  have heq : limitRanges ranges maxRanges =
      specSelect L
        ((stableSort foldingLe ranges).zip (nestingLevelsOf (stableSort foldingLe ranges)))
        (maxRanges - cumBelow (nestingLevelsOf (stableSort foldingLe ranges)) L) := by
    rw [limitRanges]
    simp only [hfind]
    exact selectRanges_eq_specSelect maxRanges L _ _
  have hsub : (limitRanges ranges maxRanges).Sublist (stableSort foldingLe ranges) := by
    have h1 := selectRanges_sublist maxRanges
      (findMaxLevel (fun lv => levelCount (nestingLevelsOf (stableSort foldingLe ranges)) lv)
        maxRanges 0 0 30).1
      ((stableSort foldingLe ranges).zip (nestingLevelsOf (stableSort foldingLe ranges)))
      (findMaxLevel (fun lv => levelCount (nestingLevelsOf (stableSort foldingLe ranges)) lv)
        maxRanges 0 0 30).2
    rw [List.map_fst_zip _ _ (le_of_eq hlen)] at h1
    rw [limitRanges]
    exact h1
  refine ⟨heq, hsub, ?_, ?_⟩
  · rw [heq]
    have h1 := specSelect_length L
      ((stableSort foldingLe ranges).zip (nestingLevelsOf (stableSort foldingLe ranges)))
      (maxRanges - cumBelow (nestingLevelsOf (stableSort foldingLe ranges)) L)
    rw [countP_zip_snd _ _ _ hlen, ← cumBelow_eq_countP] at h1
    omega
  · have := hsub.length_le
    rwa [stableSort_length] at this

/-- C5 witness: four ranges with nesting levels 0, 1, 2, 1 after sorting and
maximum 2; the cutoff is level 1 with quota 1, and the output is the level-0
range plus the first level-1 range in sorted order. -/
theorem limitRanges_spec_witness :
    limitRanges [⟨0, 10⟩, ⟨1, 5⟩, ⟨6, 9⟩, ⟨2, 3⟩] 2 =
        specSelect 1
          ((stableSort foldingLe [⟨0, 10⟩, ⟨1, 5⟩, ⟨6, 9⟩, ⟨2, 3⟩]).zip
            (nestingLevelsOf (stableSort foldingLe [⟨0, 10⟩, ⟨1, 5⟩, ⟨6, 9⟩, ⟨2, 3⟩])))
          (2 - cumBelow (nestingLevelsOf (stableSort foldingLe [⟨0, 10⟩, ⟨1, 5⟩, ⟨6, 9⟩, ⟨2, 3⟩])) 1) ∧
      (limitRanges [⟨0, 10⟩, ⟨1, 5⟩, ⟨6, 9⟩, ⟨2, 3⟩] 2).Sublist
        (stableSort foldingLe [⟨0, 10⟩, ⟨1, 5⟩, ⟨6, 9⟩, ⟨2, 3⟩]) ∧
      (limitRanges [⟨0, 10⟩, ⟨1, 5⟩, ⟨6, 9⟩, ⟨2, 3⟩] 2).length ≤ 2 ∧
      (limitRanges [⟨0, 10⟩, ⟨1, 5⟩, ⟨6, 9⟩, ⟨2, 3⟩] 2).length ≤
        ([⟨0, 10⟩, ⟨1, 5⟩, ⟨6, 9⟩, ⟨2, 3⟩] : List FoldingRange).length :=
  limitRanges_spec [⟨0, 10⟩, ⟨1, 5⟩, ⟨6, 9⟩, ⟨2, 3⟩] 2 1 (by decide) (by decide)

theorem beforeOrSame_trans (a b c : Pos) (h1 : beforeOrSame a b = true)
    (h2 : beforeOrSame b c = true) : beforeOrSame a c = true := by
  simp only [beforeOrSame, Bool.or_eq_true, decide_eq_true_eq, Bool.and_eq_true,
    beq_iff_eq] at *
  omega

theorem beforeOrSame_neg (a b : Pos) (h : beforeOrSame a b = false) :
    beforeOrSame b a = true := by
  simp only [beforeOrSame, Bool.or_eq_false_iff, Bool.and_eq_false_iff,
    decide_eq_false_iff_not, beq_eq_false_iff_ne, ne_eq] at h
  simp only [beforeOrSame, Bool.or_eq_true, decide_eq_true_eq, Bool.and_eq_true, beq_iff_eq]
  obtain ⟨h1, h2 | h2⟩ := h
  · omega
  · omega

theorem tokenAccepted_false_of_end_le (r : TextRange) (t : SemanticTokenData)
    (hl : 0 < t.length) (h : beforeOrSame r.end_ t.start = true) :
    tokenAccepted r t = false := by
  rw [tokenAccepted]
  by_cases h2 : beforeOrSame ⟨t.start.line, t.start.character + t.length⟩ r.end_ = true
  · have h3 := beforeOrSame_trans _ _ _ h2 h
    simp only [beforeOrSame, Bool.or_eq_true, decide_eq_true_eq, Bool.and_eq_true,
      beq_iff_eq] at h3
    omega
  · simp [Bool.eq_false_iff.2 h2]

theorem tokenAccepted_false_of_start_after (r : TextRange) (t : SemanticTokenData)
    (h : beforeOrSame r.start t.start = false) : tokenAccepted r t = false := by
  rw [tokenAccepted, h, Bool.false_and]

theorem mem_orderedInsertB {α : Type} (le : α → α → Bool) (a b : α) :
    ∀ l : List α, b ∈ orderedInsertB le a l ↔ b = a ∨ b ∈ l := by
  intro l
  induction l with
  | nil => simp [orderedInsertB]
  | cons x xs ih =>
    rw [orderedInsertB]
    by_cases h : le a x
    · simp [if_pos h]
    · rw [if_neg h]
      simp only [List.mem_cons, ih]
      tauto

theorem orderedInsertB_perm {α : Type} (le : α → α → Bool) (a : α) :
    ∀ l : List α, (orderedInsertB le a l).Perm (a :: l) := by
  intro l
  induction l with
  | nil => simp [orderedInsertB]
  | cons x xs ih =>
    rw [orderedInsertB]
    by_cases h : le a x
    · rw [if_pos h]
    · rw [if_neg h]
      exact (ih.cons x).trans (List.Perm.swap a x xs)

theorem stableSort_perm {α : Type} (le : α → α → Bool) :
    ∀ l : List α, (stableSort le l).Perm l := by
  intro l
  induction l with
  | nil => exact List.Perm.refl _
  | cons x xs ih =>
    rw [stableSort]
    exact (orderedInsertB_perm le x (stableSort le xs)).trans (ih.cons x)

theorem pairwise_orderedInsertB {α : Type} (le : α → α → Bool)
    (htrans : ∀ a b c, le a b = true → le b c = true → le a c = true)
    (htot : ∀ a b, le a b = false → le b a = true) (a : α) :
    ∀ l : List α, l.Pairwise (fun x y => le x y = true) →
      (orderedInsertB le a l).Pairwise (fun x y => le x y = true) := by
  intro l
  induction l with
  | nil => intro _; simp [orderedInsertB]
  | cons x xs ih =>
    intro hp
    rw [orderedInsertB]
    obtain ⟨hx, hxs⟩ := List.pairwise_cons.1 hp
    by_cases h : le a x
    · rw [if_pos h]
      refine List.pairwise_cons.2 ⟨?_, hp⟩
      intro b hb
      rcases List.mem_cons.1 hb with rfl | hb
      · exact h
      · exact htrans _ _ _ h (hx b hb)
    · rw [if_neg h]
      refine List.pairwise_cons.2 ⟨?_, ih hxs⟩
      intro b hb
      rcases (mem_orderedInsertB le a b xs).1 hb with rfl | hb
      · exact htot _ _ (Bool.eq_false_iff.2 h)
      · exact hx b hb

theorem stableSort_pairwise {α : Type} (le : α → α → Bool)
    (htrans : ∀ a b c, le a b = true → le b c = true → le a c = true)
    (htot : ∀ a b, le a b = false → le b a = true) :
    ∀ l : List α, (stableSort le l).Pairwise (fun x y => le x y = true) := by
  intro l
  induction l with
  | nil => simp [stableSort]
  | cons x xs ih =>
    rw [stableSort]
    exact pairwise_orderedInsertB le htrans htot x _ ih

theorem perm_any {α : Type} {l₁ l₂ : List α} (h : l₁.Perm l₂) (p : α → Bool) :
    l₁.any p = l₂.any p := by
  by_cases h1 : l₁.any p = true
  · obtain ⟨x, hx, hpx⟩ := List.any_eq_true.1 h1
    rw [h1, Eq.symm (List.any_eq_true.2 ⟨x, h.mem_iff.1 hx, hpx⟩)]
  · have h2 : l₂.any p = false := by
      rw [Bool.eq_false_iff]
      intro hc
      obtain ⟨x, hx, hpx⟩ := List.any_eq_true.1 hc
      exact h1 (List.any_eq_true.2 ⟨x, h.mem_iff.2 hx, hpx⟩)
    rw [Bool.eq_false_iff.mpr h1, h2]

theorem advanceRanges_none (s : Pos) :
    ∀ (rs : List TextRange) (cr : TextRange) (rs2 : List TextRange),
      advanceRanges s (some cr) rs = (none, rs2) →
      ∀ r ∈ cr :: rs, beforeOrSame r.end_ s = true := by
  intro rs
  induction rs with
  | nil =>
    intro cr rs2 h r hr
    rw [advanceRanges] at h
    by_cases hc : beforeOrSame cr.end_ s = true
    · rcases List.mem_cons.1 hr with rfl | hr2
      · exact hc
      · simp at hr2
    · rw [if_neg hc] at h
      exact absurd (congrArg Prod.fst h) (by simp)
  | cons r2 rest ih =>
    intro cr rs2 h r hr
    rw [advanceRanges] at h
    by_cases hc : beforeOrSame cr.end_ s = true
    · rw [if_pos hc] at h
      rcases List.mem_cons.1 hr with rfl | hr2
      · exact hc
      · exact ih r2 rs2 h r hr2
    · rw [if_neg hc] at h
      exact absurd (congrArg Prod.fst h) (by simp)

theorem advanceRanges_some (s : Pos) :
    ∀ (rs : List TextRange) (cr r2 : TextRange) (rs2 : List TextRange),
      advanceRanges s (some cr) rs = (some r2, rs2) →
      (∃ dropped, cr :: rs = dropped ++ r2 :: rs2 ∧
        ∀ r ∈ dropped, beforeOrSame r.end_ s = true) ∧
      beforeOrSame r2.end_ s = false := by
  intro rs
  induction rs with
  | nil =>
    intro cr r2 rs2 h
    rw [advanceRanges] at h
    by_cases hc : beforeOrSame cr.end_ s = true
    · rw [if_pos hc] at h
      exact absurd (congrArg Prod.fst h) (by simp)
    · rw [if_neg hc] at h
      obtain ⟨h1, h2⟩ := Prod.mk.injEq .. ▸ h
      injection h1 with h1
      subst h1
      subst h2
      exact ⟨⟨[], rfl, by simp⟩, Bool.eq_false_iff.2 hc⟩
  | cons rnext rest ih =>
    intro cr r2 rs2 h
    rw [advanceRanges] at h
    by_cases hc : beforeOrSame cr.end_ s = true
    · rw [if_pos hc] at h
      obtain ⟨⟨dropped, hd1, hd2⟩, hstop⟩ := ih rnext r2 rs2 h
      refine ⟨⟨cr :: dropped, by rw [List.cons_append, hd1], ?_⟩, hstop⟩
      intro r hr
      rcases List.mem_cons.1 hr with rfl | hr2
      · exact hc
      · exact hd2 r hr2
    · rw [if_neg hc] at h
      obtain ⟨h1, h2⟩ := Prod.mk.injEq .. ▸ h
      injection h1 with h1
      subst h1
      subst h2
      exact ⟨⟨[], rfl, by simp⟩, Bool.eq_false_iff.2 hc⟩

theorem encodeLoop_acc (toks : List SemanticTokenData) :
    ∀ (cr : Option TextRange) (rs : List TextRange) (pl pc : Nat) (acc : List Int),
      encodeLoop toks cr rs pl pc acc = acc ++ encodeLoop toks cr rs pl pc [] := by
  induction toks with
  | nil => intro cr rs pl pc acc; simp [encodeLoop]
  | cons curr rest ih =>
    intro cr rs pl pc acc
    match cr with
    | none => simp [encodeLoop]
    | some c =>
      simp only [encodeLoop]
      cases hadv : (advanceRanges curr.start (some c) rs).1 with
      | none => simp
      | some r =>
        dsimp only
        by_cases hacc : tokenAccepted r curr = true
        · rw [if_pos hacc, if_pos hacc, ih _ _ _ _ (acc ++ _), ih _ _ _ _ ([] ++ _)]
          simp
        · rw [if_neg hacc, if_neg hacc, ih _ _ _ _ acc]

theorem encodeLoop_decode (toks : List SemanticTokenData) :
    ∀ (cr : TextRange) (rs : List TextRange) (pl pc : Nat),
      toks.Pairwise (fun a b => beforeOrSame a.start b.start = true) →
      (∀ t ∈ toks, 0 < t.length) →
      (cr :: rs).Pairwise (fun a b : TextRange => beforeOrSame a.end_ b.start = true) →
      decodeStream (encodeLoop toks (some cr) rs pl pc []) (pl : Int) (pc : Int) =
        (toks.filter fun t => (cr :: rs).any fun r => tokenAccepted r t).map tokenTuple := by
  induction toks with
  | nil => intro cr rs pl pc _ _ _; simp [encodeLoop, decodeStream]
  | cons curr rest ih =>
    intro cr rs pl pc hsort hlen hrsort
    obtain ⟨hcr, hsort'⟩ := List.pairwise_cons.1 hsort
    have hlen0 : 0 < curr.length := hlen curr (List.mem_cons_self _ _)
    have hlen' : ∀ t ∈ rest, 0 < t.length := fun t ht => hlen t (List.mem_cons_of_mem _ ht)
    simp only [encodeLoop]
    cases hadv : (advanceRanges curr.start (some cr) rs).1 with
    | none =>
      have hpair : advanceRanges curr.start (some cr) rs =
          (none, (advanceRanges curr.start (some cr) rs).2) := by
        rw [← hadv]
      have hall := advanceRanges_none curr.start rs cr _ hpair
      dsimp only
      have hnil : decodeStream ([] : List Int) (pl : Int) (pc : Int) = [] := rfl
      rw [hnil]
      symm
      rw [List.map_eq_nil_iff, List.filter_eq_nil_iff]
      intro t ht
      rw [Bool.not_eq_true, List.any_eq_false]
      intro r hr
      have hend := hall r hr
      rcases List.mem_cons.1 ht with rfl | ht2
      · exact Bool.eq_false_iff.1 (tokenAccepted_false_of_end_le r t hlen0 hend)
      · exact Bool.eq_false_iff.1 (tokenAccepted_false_of_end_le r t (hlen' t ht2)
          (beforeOrSame_trans _ _ _ hend (hcr t ht2)))
    | some r2 =>
      have hpair : advanceRanges curr.start (some cr) rs =
          (some r2, (advanceRanges curr.start (some cr) rs).2) := by
        rw [← hadv]
      obtain ⟨⟨dropped, hdecomp, hdropcond⟩, hstop⟩ :=
        advanceRanges_some curr.start rs cr r2 _ hpair
      have hsubl : (r2 :: (advanceRanges curr.start (some cr) rs).2).Sublist (cr :: rs) := by
        rw [hdecomp]
        exact List.sublist_append_right dropped _
      have hrsort' := hrsort.sublist hsubl
      have hanyeq : ∀ t ∈ curr :: rest,
          ((cr :: rs).any fun r => tokenAccepted r t) =
          ((r2 :: (advanceRanges curr.start (some cr) rs).2).any fun r => tokenAccepted r t) := by
        intro t ht
        rw [hdecomp, List.any_append]
        have hdz : (dropped.any fun r => tokenAccepted r t) = false := by
          rw [List.any_eq_false]
          intro r hr
          have hend := hdropcond r hr
          rcases List.mem_cons.1 ht with rfl | ht2
          · exact Bool.eq_false_iff.1 (tokenAccepted_false_of_end_le r t hlen0 hend)
          · exact Bool.eq_false_iff.1 (tokenAccepted_false_of_end_le r t (hlen' t ht2)
              (beforeOrSame_trans _ _ _ hend (hcr t ht2)))
        rw [hdz, Bool.false_or]
      have hfc : List.filter
          (fun t => (r2 :: (advanceRanges curr.start (some cr) rs).2).any
            fun r => tokenAccepted r t) rest =
          List.filter (fun t => (cr :: rs).any fun r => tokenAccepted r t) rest :=
        List.filter_congr fun t ht => (hanyeq t (List.mem_cons_of_mem _ ht)).symm
      dsimp only
      by_cases hacc : tokenAccepted r2 curr = true
      · have hkeep : ((cr :: rs).any fun r => tokenAccepted r curr) = true := by
          rw [hanyeq curr (List.mem_cons_self _ _), List.any_cons, hacc, Bool.true_or]
        rw [if_pos hacc, encodeLoop_acc, List.filter_cons]
        rw [hkeep, if_pos rfl, List.map_cons]
        simp only [List.nil_append, List.cons_append]
        rw [decodeStream]
        have h1 : ((pl : Int) + ((curr.start.line : Int) - (pl : Int))) =
            (curr.start.line : Int) := by omega
        have h2 : (if ((curr.start.line : Int) - (pl : Int)) = 0 then
              (pc : Int) + ((curr.start.character : Int) -
                (if pl = curr.start.line then (pc : Int) else 0))
            else ((curr.start.character : Int) -
                (if pl = curr.start.line then (pc : Int) else 0))) =
            (curr.start.character : Int) := by
          by_cases hpl : pl = curr.start.line
          · rw [if_pos hpl, if_pos (by omega : ((curr.start.line : Int) - (pl : Int)) = 0)]
            omega
          · rw [if_neg hpl,
              if_neg (show ¬((curr.start.line : Int) - (pl : Int)) = 0 by omega)]
            omega
        rw [h1, h2]
        have hrest := ih r2 (advanceRanges curr.start (some cr) rs).2
          curr.start.line curr.start.character hsort' hlen' hrsort'
        rw [hrest, hfc, tokenTuple]
      · have hdrop : ((cr :: rs).any fun r => tokenAccepted r curr) = false := by
          rw [hanyeq curr (List.mem_cons_self _ _), List.any_eq_false]
          intro r hr
          rcases List.mem_cons.1 hr with rfl | hr2
          · exact hacc
          · have hd := (List.pairwise_cons.1 hrsort').1 r hr2
            refine Bool.eq_false_iff.1 (tokenAccepted_false_of_start_after r curr ?_)
            by_contra hc
            have hc2 : beforeOrSame r.start curr.start = true := by
              rw [← Bool.not_eq_false]
              exact hc
            have hc3 := beforeOrSame_trans _ _ _ hd hc2
            rw [hc3] at hstop
            exact Bool.noConfusion hstop
        rw [if_neg hacc, List.filter_cons]
        rw [hdrop, if_neg (by simp)]
        have hrest := ih r2 (advanceRanges curr.start (some cr) rs).2 pl pc hsort' hlen' hrsort'
        rw [hrest, hfc]

/-- C6 (amended): for every token list whose tokens all have positive length
and every list of pairwise disjoint query ranges, decoding the delta stream
emitted by `encodeTokens` (accumulating line deltas, resetting the character
base to absolute whenever the line changes) reconstructs exactly the
(line, character, length, type index, modifier set) tuples of those input
tokens that, after sorting by (line, character), lie entirely within a
single query range; a token straddling a range boundary or falling in a gap
between ranges contributes nothing to the stream.  (With overlapping query
ranges, or zero-length tokens at a range's end, tokens contained in a range
can be dropped: see the counterexample.) -/
theorem encodeTokens_roundtrip (tokens : List SemanticTokenData) (ranges : List TextRange)
    (hlen : ∀ t ∈ tokens, 0 < t.length)
    (hdisj : (stableSort (fun a b : TextRange => beforeOrSame a.start b.start) ranges).Pairwise
      (fun a b => beforeOrSame a.end_ b.start = true)) :
    decodeStream (encodeTokens tokens ranges) 0 0 =
      ((stableSort (fun a b : SemanticTokenData => beforeOrSame a.start b.start) tokens).filter
        (fun t => ranges.any fun r => tokenAccepted r t)).map tokenTuple := by
  have htrans : ∀ a b c : SemanticTokenData, beforeOrSame a.start b.start = true →
      beforeOrSame b.start c.start = true → beforeOrSame a.start c.start = true :=
    fun a b c h1 h2 => beforeOrSame_trans _ _ _ h1 h2
  have htot : ∀ a b : SemanticTokenData, beforeOrSame a.start b.start = false →
      beforeOrSame b.start a.start = true :=
    fun a b h => beforeOrSame_neg _ _ h
  rw [encodeTokens]
  cases hsr : stableSort (fun a b : TextRange => beforeOrSame a.start b.start) ranges with
  | nil =>
    have hempty : ranges = [] :=
      List.Perm.eq_nil (hsr ▸ stableSort_perm (fun a b : TextRange => beforeOrSame a.start b.start) ranges).symm
    subst hempty
    simp [decodeStream]
  | cons r rest =>
    have hperm : (r :: rest).Perm ranges := hsr ▸ stableSort_perm _ ranges
    have hsorted := stableSort_pairwise (fun a b : SemanticTokenData => beforeOrSame a.start b.start)
      htrans htot tokens
    have hlen2 : ∀ t ∈ stableSort (fun a b : SemanticTokenData => beforeOrSame a.start b.start)
        tokens, 0 < t.length :=
      fun t ht => hlen t ((stableSort_perm _ tokens).mem_iff.1 ht)
    have hrsort : (r :: rest).Pairwise (fun a b : TextRange => beforeOrSame a.end_ b.start = true) :=
      hsr ▸ hdisj
    have hmain := encodeLoop_decode
      (stableSort (fun a b : SemanticTokenData => beforeOrSame a.start b.start) tokens)
      r rest 0 0 hsorted hlen2 hrsort
    have hfc : List.filter
        (fun t => (r :: rest).any fun r2 => tokenAccepted r2 t)
        (stableSort (fun a b : SemanticTokenData => beforeOrSame a.start b.start) tokens) =
        List.filter (fun t => ranges.any fun r2 => tokenAccepted r2 t)
          (stableSort (fun a b : SemanticTokenData => beforeOrSame a.start b.start) tokens) :=
      List.filter_congr fun t _ => perm_any hperm _
    rw [hfc] at hmain
    simpa using hmain

/-- C6 witness: three positive-length tokens (given unsorted) and one query
range covering lines 0–5; the decoded stream reconstructs the sorted token
tuples exactly. -/
theorem encodeTokens_roundtrip_witness :
    decodeStream (encodeTokens
        [⟨⟨1, 2⟩, 3, 1, 2⟩, ⟨⟨0, 1⟩, 2, 0, 1⟩, ⟨⟨1, 7⟩, 1, 2, 0⟩]
        [⟨⟨0, 0⟩, ⟨5, 0⟩⟩]) 0 0 =
      ((stableSort (fun a b : SemanticTokenData => beforeOrSame a.start b.start)
        [⟨⟨1, 2⟩, 3, 1, 2⟩, ⟨⟨0, 1⟩, 2, 0, 1⟩, ⟨⟨1, 7⟩, 1, 2, 0⟩]).filter
        (fun t => ([⟨⟨0, 0⟩, ⟨5, 0⟩⟩] : List TextRange).any fun r => tokenAccepted r t)).map
        tokenTuple :=
  encodeTokens_roundtrip
    [⟨⟨1, 2⟩, 3, 1, 2⟩, ⟨⟨0, 1⟩, 2, 0, 1⟩, ⟨⟨1, 7⟩, 1, 2, 0⟩]
    [⟨⟨0, 0⟩, ⟨5, 0⟩⟩] (by decide) (by decide)

/-- C3 counterexample: a document `abcdef` whose requested range `[0,6)` on
line 0 starts inside a css region `[0,3)`.  The leading non-host pass
consumes the css range (producing no edits) and advances the cursor to
character 3; the host formatter rewrites `def` to `DEF`; the embedded pass
then produces one edit, so the method emits one single replacement edit —
but it covers `(0,3)–(0,6)`, the format range left after the prefix pass,
not the full original requested range `(0,0)–(0,6)`. -/
theorem format_range_counterexample :
    formatModel
        (fun c _ => if c = "abcdef".toList then
          [⟨some "css", false, ⟨0, 0⟩, ⟨0, 3⟩⟩, ⟨some "html", false, ⟨0, 3⟩, ⟨0, 6⟩⟩]
         else [⟨some "css", false, ⟨0, 3⟩, ⟨0, 6⟩⟩])
        (fun id => if id = "css" then
          some (fun c _ => if c = "abcdef".toList then [] else [⟨⟨⟨0, 3⟩, ⟨0, 3⟩⟩, "X".toList⟩])
         else none)
        (fun _ _ => [⟨⟨⟨0, 3⟩, ⟨0, 6⟩⟩, "DEF".toList⟩])
        [] "abcdef".toList ⟨⟨0, 0⟩, ⟨0, 6⟩⟩ =
      some [⟨⟨⟨0, 3⟩, ⟨0, 6⟩⟩, "XDEF".toList⟩] ∧
    (⟨⟨0, 3⟩, ⟨0, 6⟩⟩ : TextRange) ≠ ⟨⟨0, 0⟩, ⟨0, 6⟩⟩ := by
  refine ⟨by decide, by decide⟩

/-- C3 (amended): whenever the leading non-host prefix pass stops at a host
mode range (the unconsumed range list is nonempty) and the host formatter's
edits apply cleanly, then: if the embedded-format pass over the
host-formatted temporary document produces no edits, the host formatter's
edits are emitted alone, appended to the leading non-host-prefix edits;
otherwise all embedded edits are applied to the temporary document and the
method emits (after the prefix edits) one single replacement edit covering
the format range as adjusted by the trailing-newline trim and the prefix
pass — not necessarily the full original requested range — whose
replacement text is the resulting temporary-document text strictly between
the adjusted range start's offset and (temporary document length − unchanged
trailing length). -/
theorem format_stitch
    (modesInRange : List Char → TextRange → List FmtModeRange)
    (modeFormatFn : String → Option (List Char → TextRange → List TextEditM))
    (htmlFormat : List Char → TextRange → List TextEditM)
    (unformattedTags content : List Char) (range : TextRange)
    (prefixEdits : List TextEditM) (startPos : Pos)
    (firstRange : FmtModeRange) (restRanges : List FmtModeRange)
    (newContent : List Char)
    (hpp : prefixPass modeFormatFn content
        (modesInRange content (fmtFormatRange content range))
        (fmtFormatRange content range).start [] =
      (prefixEdits, startPos, firstRange :: restRanges))
    (happ : applyEdits content
        (htmlFormat content ⟨startPos, (fmtFormatRange content range).end_⟩) = some newContent) :
    (embeddedEditsOf modeFormatFn unformattedTags newContent
        (modesInRange newContent ⟨startPos, positionAt newContent
          (newContent.length -
            (content.length - offsetAt content (fmtFormatRange content range).end_))⟩) = [] →
      formatModel modesInRange modeFormatFn htmlFormat unformattedTags content range =
        some (prefixEdits ++ htmlFormat content ⟨startPos, (fmtFormatRange content range).end_⟩)) ∧
    (∀ resultContent : List Char,
      embeddedEditsOf modeFormatFn unformattedTags newContent
        (modesInRange newContent ⟨startPos, positionAt newContent
          (newContent.length -
            (content.length - offsetAt content (fmtFormatRange content range).end_))⟩) ≠ [] →
      applyEdits newContent
        (embeddedEditsOf modeFormatFn unformattedTags newContent
          (modesInRange newContent ⟨startPos, positionAt newContent
            (newContent.length -
              (content.length - offsetAt content (fmtFormatRange content range).end_))⟩)) =
        some resultContent →
      formatModel modesInRange modeFormatFn htmlFormat unformattedTags content range =
        some (prefixEdits ++
          [⟨⟨startPos, (fmtFormatRange content range).end_⟩,
            (resultContent.drop (min (offsetAt content startPos)
              (resultContent.length -
                (content.length - offsetAt content (fmtFormatRange content range).end_)))).take
              (max (offsetAt content startPos)
                (resultContent.length -
                  (content.length - offsetAt content (fmtFormatRange content range).end_)) -
               min (offsetAt content startPos)
                (resultContent.length -
                  (content.length - offsetAt content (fmtFormatRange content range).end_)))⟩])) := by
  constructor
  · intro hemp
    rw [formatModel]
    rw [hpp]
    dsimp only
    rw [happ]
    dsimp only
    rw [hemp]
    rw [if_pos rfl]
  · intro resultContent hne happ2
    rw [formatModel]
    rw [hpp]
    dsimp only
    rw [happ]
    dsimp only
    rw [if_neg hne]
    rw [happ2]

/-- C3 witness: the amended theorem's no-embedded-edits branch at a concrete
document: the css formatter returns no edits, so `format` emits the host
edit alone after the (empty) prefix edits. -/
theorem format_stitch_witness :
    formatModel
        (fun c _ => if c = "abcdef".toList then
          [⟨some "css", false, ⟨0, 0⟩, ⟨0, 3⟩⟩, ⟨some "html", false, ⟨0, 3⟩, ⟨0, 6⟩⟩]
         else [⟨some "css", false, ⟨0, 3⟩, ⟨0, 6⟩⟩])
        (fun id => if id = "css" then some (fun _ _ => ([] : List TextEditM)) else none)
        (fun _ _ => [⟨⟨⟨0, 3⟩, ⟨0, 6⟩⟩, "DEF".toList⟩])
        [] "abcdef".toList ⟨⟨0, 0⟩, ⟨0, 6⟩⟩ =
      some [⟨⟨⟨0, 3⟩, ⟨0, 6⟩⟩, "DEF".toList⟩] :=
  (format_stitch
    (fun c _ => if c = "abcdef".toList then
      [⟨some "css", false, ⟨0, 0⟩, ⟨0, 3⟩⟩, ⟨some "html", false, ⟨0, 3⟩, ⟨0, 6⟩⟩]
     else [⟨some "css", false, ⟨0, 3⟩, ⟨0, 6⟩⟩])
    (fun id => if id = "css" then some (fun _ _ => ([] : List TextEditM)) else none)
    (fun _ _ => [⟨⟨⟨0, 3⟩, ⟨0, 6⟩⟩, "DEF".toList⟩])
    [] "abcdef".toList ⟨⟨0, 0⟩, ⟨0, 6⟩⟩
    [] ⟨0, 3⟩ ⟨some "html", false, ⟨0, 3⟩, ⟨0, 6⟩⟩ []
    "abcDEF".toList (by decide) (by decide)).1 (by decide)
